import Mathlib

/-!
# Shallow embedding of `rs-json-store` (src/store.rs, src/error.rs)

The repository implements an embeddable JSON document store (`JsonStore`)
with named collections (`Tree`), per-collection configuration (`Info`),
auto-assigned sequence numbers, capacity bounds, composite uniqueness
groups, and a dirty-flag-gated two-file persistence layer.

Modelling conventions:
* `u64`/`u32`/`usize` are `Nat`; the `u64` bound `2^64` appears explicitly
  where the code's behaviour depends on it (`str::parse::<u64>` overflow,
  `Value::as_u64`).
* `serde_json::Value` is the inductive `JsonValue`.  serde's object maps
  are `BTreeMap`s compared as maps; we use association lists.  At every
  comparison site of the code (`n == o` in the uniqueness scans) both
  sides are built by inserting the same ordered field list into an
  initially empty object, so the association lists have identical key
  order and list equality coincides with map equality.
* `HashMap` is an association list; its unspecified iteration order is
  represented by the list order.
* The tokio `RwLock` always succeeds in this sequential model; the lock
  acquisition itself (`_write_lock`/`_read_lock`) fails exactly when the
  collection is absent from `trees`, as in the code.
* `serde_json::to_value` on the caller's document is modelled as the
  identity: operations take the already-structured `JsonValue`.
* Rust methods mutate `self` through the lock even when they later return
  `Err`, so each operation returns a pair (result, post-state): the
  post-state is meaningful on the error path too.
* The file system is an association list from path (String) to file
  content.  Serialisation of the registry and the data map to JSON text
  is modelled as the identity on the structured content (the
  serialize/deserialize external-collaborator contract of the spec);
  sequence marker files hold raw text because `get_sequence` parses text
  with `str::parse::<u64>().unwrap_or_default()`.
-/

namespace RsJsonStore

/-- `serde_json::Value`: Null / Bool / Number / String / Array / Object.
Numbers are modelled as integers (sequence numbers are the only numbers the
store itself manufactures). -/
inductive JsonValue where
  | null : JsonValue
  | bool (b : Bool) : JsonValue
  | num (n : Int) : JsonValue
  | str (s : String) : JsonValue
  | arr (elems : List JsonValue) : JsonValue
  | obj (fields : List (String × JsonValue)) : JsonValue
deriving Repr

mutual

/-- Structural equality of `serde_json::Value`s, decidably. -/
def JsonValue.decEq : (a b : JsonValue) → Decidable (a = b)
  | .null, .null => .isTrue rfl
  | .bool a, .bool b =>
    if h : a = b then .isTrue (h ▸ rfl)
    else .isFalse (fun hh => h (JsonValue.bool.inj hh))
  | .num a, .num b =>
    if h : a = b then .isTrue (h ▸ rfl)
    else .isFalse (fun hh => h (JsonValue.num.inj hh))
  | .str a, .str b =>
    if h : a = b then .isTrue (h ▸ rfl)
    else .isFalse (fun hh => h (JsonValue.str.inj hh))
  | .arr xs, .arr ys =>
    match JsonValue.decEqList xs ys with
    | .isTrue h => .isTrue (h ▸ rfl)
    | .isFalse h => .isFalse (fun hh => h (JsonValue.arr.inj hh))
  | .obj xs, .obj ys =>
    match JsonValue.decEqFields xs ys with
    | .isTrue h => .isTrue (h ▸ rfl)
    | .isFalse h => .isFalse (fun hh => h (JsonValue.obj.inj hh))
  | .null, .bool _ => .isFalse (by intro h; cases h)
  | .null, .num _ => .isFalse (by intro h; cases h)
  | .null, .str _ => .isFalse (by intro h; cases h)
  | .null, .arr _ => .isFalse (by intro h; cases h)
  | .null, .obj _ => .isFalse (by intro h; cases h)
  | .bool _, .null => .isFalse (by intro h; cases h)
  | .bool _, .num _ => .isFalse (by intro h; cases h)
  | .bool _, .str _ => .isFalse (by intro h; cases h)
  | .bool _, .arr _ => .isFalse (by intro h; cases h)
  | .bool _, .obj _ => .isFalse (by intro h; cases h)
  | .num _, .null => .isFalse (by intro h; cases h)
  | .num _, .bool _ => .isFalse (by intro h; cases h)
  | .num _, .str _ => .isFalse (by intro h; cases h)
  | .num _, .arr _ => .isFalse (by intro h; cases h)
  | .num _, .obj _ => .isFalse (by intro h; cases h)
  | .str _, .null => .isFalse (by intro h; cases h)
  | .str _, .bool _ => .isFalse (by intro h; cases h)
  | .str _, .num _ => .isFalse (by intro h; cases h)
  | .str _, .arr _ => .isFalse (by intro h; cases h)
  | .str _, .obj _ => .isFalse (by intro h; cases h)
  | .arr _, .null => .isFalse (by intro h; cases h)
  | .arr _, .bool _ => .isFalse (by intro h; cases h)
  | .arr _, .num _ => .isFalse (by intro h; cases h)
  | .arr _, .str _ => .isFalse (by intro h; cases h)
  | .arr _, .obj _ => .isFalse (by intro h; cases h)
  | .obj _, .null => .isFalse (by intro h; cases h)
  | .obj _, .bool _ => .isFalse (by intro h; cases h)
  | .obj _, .num _ => .isFalse (by intro h; cases h)
  | .obj _, .str _ => .isFalse (by intro h; cases h)
  | .obj _, .arr _ => .isFalse (by intro h; cases h)

/-- Decidable equality of value lists. -/
def JsonValue.decEqList : (xs ys : List JsonValue) → Decidable (xs = ys)
  | [], [] => .isTrue rfl
  | [], _ :: _ => .isFalse (by intro h; cases h)
  | _ :: _, [] => .isFalse (by intro h; cases h)
  | x :: xs, y :: ys =>
    match JsonValue.decEq x y with
    | .isFalse h => .isFalse (fun hh => h (List.cons.inj hh).1)
    | .isTrue h1 =>
      match JsonValue.decEqList xs ys with
      | .isTrue h2 => .isTrue (by rw [h1, h2])
      | .isFalse h2 => .isFalse (fun hh => h2 (List.cons.inj hh).2)

/-- Decidable equality of object field lists. -/
def JsonValue.decEqFields : (xs ys : List (String × JsonValue)) → Decidable (xs = ys)
  | [], [] => .isTrue rfl
  | [], _ :: _ => .isFalse (by intro h; cases h)
  | _ :: _, [] => .isFalse (by intro h; cases h)
  | (k, v) :: xs, (k', v') :: ys =>
    if hk : k = k' then
      match JsonValue.decEq v v' with
      | .isFalse h => .isFalse (fun hh => h (Prod.mk.inj (List.cons.inj hh).1).2)
      | .isTrue hv =>
        match JsonValue.decEqFields xs ys with
        | .isTrue h2 => .isTrue (by rw [hk, hv, h2])
        | .isFalse h2 => .isFalse (fun hh => h2 (List.cons.inj hh).2)
    else .isFalse (fun hh => hk (Prod.mk.inj (List.cons.inj hh).1).1)

end

instance : DecidableEq JsonValue := JsonValue.decEq

instance {e a : Type} [DecidableEq e] [DecidableEq a] : DecidableEq (Except e a) := fun x y =>
  match x, y with
  | .ok v, .ok w =>
    if h : v = w then .isTrue (h ▸ rfl) else .isFalse (fun hh => h (Except.ok.inj hh))
  | .error v, .error w =>
    if h : v = w then .isTrue (h ▸ rfl) else .isFalse (fun hh => h (Except.error.inj hh))
  | .ok _, .error _ => .isFalse (by intro h; cases h)
  | .error _, .ok _ => .isFalse (by intro h; cases h)

/-- `JsonStoreError` from src/error.rs (payload strings kept where present;
the serde/io variants drop their wrapped message). -/
inductive JsonStoreError where
  | deserializeFromStr : JsonStoreError
  | io : JsonStoreError
  | inUseTree (t : String) : JsonStoreError
  | notFoundTree (t : String) : JsonStoreError
  | foundTree (t : String) : JsonStoreError
  | duplicateUniqueFields (t : String) : JsonStoreError
  | capacityExceeded (t : String) : JsonStoreError
  | unableToMutValue (t : String) : JsonStoreError
  | sequenceNotExist (t : String) : JsonStoreError
  | unObjectValue : JsonStoreError
  | defaultError : JsonStoreError
deriving DecidableEq, Repr

/-- `Info`: per-collection configuration (src/store.rs lines 18-23).
`unique_fields: HashMap<String, Vec<String>>` and `capacity: u32`. -/
structure Info where
  sequence_field : String
  unique_fields : List (String × List String)
  capacity : Nat
deriving DecidableEq, Repr

/-- `Tree`: mutable collection state (src/store.rs lines 39-44):
`sequence: u64`, `data: HashMap<u64, Value>`, `changed: bool`. -/
structure Tree where
  sequence : Nat
  data : List (Nat × JsonValue)
  changed : Bool
deriving DecidableEq, Repr

/-- `JsonStore` (src/store.rs lines 58-63): root path, registry, trees. -/
structure JsonStore where
  path : String
  infos : List (String × Info)
  trees : List (String × Tree)
deriving DecidableEq, Repr

/-- Association-list lookup (the `HashMap::get` of the model). -/
def lookupKey {α β : Type} [DecidableEq α] (k : α) : List (α × β) → Option β
  | [] => none
  | (k', v) :: rest => if k = k' then some v else lookupKey k rest

/-- Association-list insert-or-replace (the `HashMap::insert` / `BTreeMap::insert`
of the model; replaces in place, appends when absent). -/
def insertKey {α β : Type} [DecidableEq α] (k : α) (v : β) : List (α × β) → List (α × β)
  | [] => [(k, v)]
  | (k', v') :: rest => if k = k' then (k, v) :: rest else (k', v') :: insertKey k v rest

/-- Association-list removal of the (first) binding of `k` (`HashMap::remove`;
keys are distinct in every map the program builds). -/
def removeKey {α β : Type} [DecidableEq α] (k : α) : List (α × β) → List (α × β)
  | [] => []
  | (k', v') :: rest => if k = k' then rest else (k', v') :: removeKey k rest

/-- `HashMap::entry(k).and_modify(|v| *v = x)`: replace the value at `k`
when present, leave the map unchanged when absent. -/
def modifyKey {α β : Type} [DecidableEq α] (k : α) (x : β) : List (α × β) → List (α × β)
  | [] => []
  | (k', v') :: rest => if k = k' then (k', x) :: rest else (k', v') :: modifyKey k x rest

/-- `HashMap::contains_key`. -/
def containsKey {α β : Type} [DecidableEq α] (k : α) (l : List (α × β)) : Bool :=
  (lookupKey k l).isSome

/-- `serde_json::Value`'s `Index<&str>` (`json_value[field]`): the field's
value when `self` is an object containing it, `Value::Null` otherwise
(missing key or non-object receiver) — total, never panics. -/
def JsonValue.index (v : JsonValue) (k : String) : JsonValue :=
  match v with
  | .obj fields => (lookupKey k fields).getD .null
  | _ => .null

/-- `Value::get(&str)` / `Value::get_mut(&str)` success condition: `Some`
exactly when `self` is an object containing the key. -/
def JsonValue.get? (v : JsonValue) (k : String) : Option JsonValue :=
  match v with
  | .obj fields => lookupKey k fields
  | _ => none

/-- `Value::as_u64`: `Some` exactly for numbers representable as `u64`. -/
def JsonValue.asU64 (v : JsonValue) : Option Nat :=
  match v with
  | .num n => if 0 ≤ n ∧ n < (2 : Int) ^ 64 then some n.toNat else none
  | _ => none

/-- `Value::is_null`. -/
def JsonValue.isNull (v : JsonValue) : Bool :=
  match v with
  | .null => true
  | _ => false

/-- One step of the projection loop: `acc.as_object_mut().ok_or(UnObjectValue)?
.insert(field, value)` (src/store.rs lines 154-157, 161-164, 220-223, 231-234). -/
def insertIntoObject (v : JsonValue) (k : String) (x : JsonValue) :
    Except JsonStoreError JsonValue :=
  match v with
  | .obj fields => .ok (.obj (insertKey k x fields))
  | _ => .error .unObjectValue

/-- The composite projection of `doc` over a uniqueness group's ordered
field list: start from `json!({})` and insert `doc[field]` for each field,
exactly as the inner `for field in fields` loops do. -/
def buildProjection (fields : List String) (doc : JsonValue) :
    Except JsonStoreError JsonValue :=
  fields.foldlM (fun acc field => insertIntoObject acc field (doc.index field)) (.obj [])

/-- The pure value `buildProjection` always computes (it starts from an
object and `insertIntoObject` keeps objects objects). -/
def projList (fields : List String) (doc : JsonValue) : List (String × JsonValue) :=
  fields.foldl (fun acc field => insertKey field (doc.index field) acc) []

/-- Insert's scan of existing rows for one uniqueness group
(src/store.rs lines 159-169): build each row's projection `o`, fail
`DuplicateUniqueFields` on structural equality with the candidate's `n`. -/
def scanRows (tname : String) (fields : List String) (n : JsonValue) :
    List (Nat × JsonValue) → Except JsonStoreError Unit
  | [] => .ok ()
  | (_, row) :: rest => do
    let o ← buildProjection fields row
    if n = o then .error (.duplicateUniqueFields tname)
    else scanRows tname fields n rest

/-- Update's scan: identical, but rows stored under the key being updated
are skipped (src/store.rs lines 226-239). -/
def scanRowsExcept (tname : String) (fields : List String) (n : JsonValue) (seq : Nat) :
    List (Nat × JsonValue) → Except JsonStoreError Unit
  | [] => .ok ()
  | (key, row) :: rest =>
    if key = seq then scanRowsExcept tname fields n seq rest
    else do
      let o ← buildProjection fields row
      if n = o then .error (.duplicateUniqueFields tname)
      else scanRowsExcept tname fields n seq rest

/-- Insert's outer loop over uniqueness groups (src/store.rs lines 151-170). -/
def uniqueScan (tname : String) (doc : JsonValue) (data : List (Nat × JsonValue)) :
    List (String × List String) → Except JsonStoreError Unit
  | [] => .ok ()
  | (_, fields) :: rest => do
    let n ← buildProjection fields doc
    scanRows tname fields n data
    uniqueScan tname doc data rest

/-- Update's outer loop over uniqueness groups (src/store.rs lines 218-240). -/
def uniqueScanExcept (tname : String) (doc : JsonValue) (seq : Nat)
    (data : List (Nat × JsonValue)) :
    List (String × List String) → Except JsonStoreError Unit
  | [] => .ok ()
  | (_, fields) :: rest => do
    let n ← buildProjection fields doc
    scanRowsExcept tname fields n seq data
    uniqueScanExcept tname doc seq data rest

/-- src/store.rs lines 175-185: write `new_seq` into the document's
sequence field.  When `json_value[field]` is null, insert through
`as_object_mut` (fails `UnObjectValue` on a non-object); otherwise assign
through `get_mut` (fails `UnableToMutValue` when absent — which cannot
happen, since a non-null indexed value implies an object containing the key). -/
def setSequenceField (tname field : String) (seq : Nat) (v : JsonValue) :
    Except JsonStoreError JsonValue :=
  if (v.index field).isNull then
    match v with
    | .obj fs => .ok (.obj (insertKey field (.num (seq : Int)) fs))
    | _ => .error .unObjectValue
  else
    match v.get? field with
    | some _ =>
      match v with
      | .obj fs => .ok (.obj (insertKey field (.num (seq : Int)) fs))
      | _ => .error (.unableToMutValue tname)
    | none => .error (.unableToMutValue tname)

/-- Replace collection `tname`'s tree (writing back through the lock). -/
def updateTree (s : JsonStore) (tname : String) (t : Tree) : JsonStore :=
  { s with trees := insertKey tname t s.trees }

/-- `JsonStore::insert` (src/store.rs lines 133-192).  Returns the result
together with the post-state: the state is mutated before the fallible
sequence-field write, so the error path can carry a mutated store. -/
def JsonStore.insert (s : JsonStore) (tname : String) (value : JsonValue) :
    Except JsonStoreError Nat × JsonStore :=
  match lookupKey tname s.infos with
  | none => (.error (.notFoundTree tname), s)
  | some info =>
    match lookupKey tname s.trees with
    | none => (.error (.notFoundTree tname), s)
    | some tree =>
      if info.capacity ≤ tree.data.length then
        (.error (.capacityExceeded tname), s)
      else
        match uniqueScan tname value tree.data info.unique_fields with
        | .error e => (.error e, s)
        | .ok _ =>
          let seq := tree.sequence + 1
          let tree1 : Tree := { tree with sequence := seq }
          match setSequenceField tname info.sequence_field seq value with
          | .error e => (.error e, updateTree s tname tree1)
          | .ok json1 =>
            (.ok seq,
             updateTree s tname
               { tree1 with data := insertKey seq json1 tree1.data, changed := true })

/-- `JsonStore::update` (src/store.rs lines 195-247). -/
def JsonStore.update (s : JsonStore) (tname : String) (value : JsonValue) :
    Except JsonStoreError Unit × JsonStore :=
  match lookupKey tname s.infos with
  | none => (.error (.notFoundTree tname), s)
  | some info =>
    match lookupKey tname s.trees with
    | none => (.error (.notFoundTree tname), s)
    | some tree =>
      match (value.index info.sequence_field).asU64 with
      | none => (.error (.sequenceNotExist tname), s)
      | some seq =>
        if containsKey seq tree.data then
          match uniqueScanExcept tname value seq tree.data info.unique_fields with
          | .error e => (.error e, s)
          | .ok _ =>
            (.ok (),
             updateTree s tname
               { tree with data := modifyKey seq value tree.data, changed := true })
        else (.error (.sequenceNotExist tname), s)

/-- `JsonStore::delete` (src/store.rs lines 249-259): no registry lookup,
straight to the lock; removing an absent key fails `SequenceNotExist`
without touching `changed`. -/
def JsonStore.delete (s : JsonStore) (tname : String) (sequence : Nat) :
    Except JsonStoreError Unit × JsonStore :=
  match lookupKey tname s.trees with
  | none => (.error (.notFoundTree tname), s)
  | some tree =>
    if containsKey sequence tree.data then
      (.ok (),
       updateTree s tname
         { tree with data := removeKey sequence tree.data, changed := true })
    else (.error (.sequenceNotExist tname), s)

example : (JsonStore.insert ⟨"r", [("t", ⟨"id", [], 1⟩)], [("t", ⟨0, [], false⟩)]⟩
    "t" (.obj [("email", .str "a")])).1 = .ok 1 := by decide

example : (JsonStore.insert ⟨"r", [("t", ⟨"id", [], 1⟩)], [("t", ⟨0, [], false⟩)]⟩
    "t" (.str "x")).1 = .error .unObjectValue := by decide

/-- Decimal digit characters of `n`, most significant first, empty for 0.
The first argument is fuel (any bound ≥ n); fuel-based recursion keeps the
definition reducible by the kernel. -/
def natDigitsAux : Nat → Nat → List Char
  | _, 0 => []
  | 0, _ + 1 => []
  | fuel + 1, n + 1 =>
    natDigitsAux fuel ((n + 1) / 10) ++ [Nat.digitChar ((n + 1) % 10)]

/-- `u64::to_string()`: decimal representation, `"0"` for zero. -/
def natToString (n : Nat) : String :=
  if n = 0 then "0" else String.mk (natDigitsAux n n)

/-- One leading `+` sign is skipped by `str::parse::<u64>()`. -/
def stripPlus (cs : List Char) : List Char :=
  match cs with
  | c :: rest => if c = '+' then rest else c :: rest
  | [] => []

/-- `str::parse::<u64>()`: an optional leading `+`, then one or more ASCII
digits, and the value must fit in `u64`.  Anything else — empty input, a
trailing newline, spaces, a `-` sign, non-digits, overflow — is an error
(`none`). -/
def parseU64 (s : String) : Option Nat :=
  let digits : List Char := stripPlus s.data
  if digits.isEmpty then none
  else if digits.all Char.isDigit then
    let n := digits.foldl (fun acc c => acc * 10 + (c.toNat - 48)) 0
    if n < 2 ^ 64 then some n else none
  else none

/-- One file's content.  `text` is raw text (what `put_sequence` writes and
`get_sequence` reads); `infosJson` / `dataJson` stand for the JSON text
`serde_json::to_string` produces for the registry map / a collection's data
map — the codec is modelled as the identity on the structured content, per
the serialize/deserialize collaborator contract. -/
inductive FileContent where
  | text (s : String) : FileContent
  | infosJson (m : List (String × Info)) : FileContent
  | dataJson (m : List (Nat × JsonValue)) : FileContent
deriving DecidableEq, Repr

/-- The file system: a mapping from path to file content.  A path absent
from the list is a missing file (`ErrorKind::NotFound` on read). -/
abbrev FS : Type := List (String × FileContent)

/-- `Path::join` of the store root with a file name. -/
def pathJoin (root file : String) : String := root ++ "/" ++ file

/-- The registry file name (src/store.rs line 16). -/
def INFOS_FILE : String := "infos.json"

/-- `get_sequence` (src/store.rs lines 338-347): a missing file is sequence
0; otherwise `parse::<u64>().unwrap_or_default()`, so unparseable text is
also 0.  Structured JSON content (a serialised registry or data map) is
text starting with `{`, which never parses as `u64`, hence also 0. -/
def get_sequence (fs : FS) (file : String) : Except JsonStoreError Nat :=
  match lookupKey file fs with
  | none => .ok 0
  | some (.text s) => .ok ((parseU64 s).getD 0)
  | some _ => .ok 0

/-- `get_json::<HashMap<String, Info>>` (src/store.rs lines 326-332):
missing file is `None`; content that is not a serialised registry fails
deserialisation.  (Text the program itself writes to other files — a bare
decimal number, or a data map whose documents are not `Info` records —
does not deserialise as `HashMap<String, Info>`.) -/
def get_json_infos (fs : FS) (file : String) :
    Except JsonStoreError (Option (List (String × Info))) :=
  match lookupKey file fs with
  | none => .ok none
  | some (.infosJson m) => .ok (some m)
  | some _ => .error .deserializeFromStr

/-- `get_json::<HashMap<u64, Value>>` on a collection's data file. -/
def get_json_data (fs : FS) (file : String) :
    Except JsonStoreError (Option (List (Nat × JsonValue))) :=
  match lookupKey file fs with
  | none => .ok none
  | some (.dataJson m) => .ok (some m)
  | some _ => .error .deserializeFromStr

/-- `JsonStore::save_tree` (src/store.rs lines 284-300), with an injected
I/O outcome for each of the two writes: `okSeq`/`okData` `true` means that
write succeeds and updates the file system, `false` means it fails with an
I/O error (the file is left untouched).  The dirty check precedes both
writes; the sequence marker is written before the data file; the flag is
cleared only after both writes succeed. -/
def JsonStore.save_tree (s : JsonStore) (fs : FS) (tname : String)
    (okSeq okData : Bool) : Except JsonStoreError Unit × JsonStore × FS :=
  match lookupKey tname s.trees with
  | none => (.error (.notFoundTree tname), s, fs)
  | some tree =>
    if tree.changed = false then (.ok (), s, fs)
    else if okSeq = false then (.error .io, s, fs)
    else
      let fs1 := insertKey (pathJoin s.path (tname ++ ".seq"))
        (FileContent.text (natToString tree.sequence)) fs
      if okData = false then (.error .io, s, fs1)
      else
        (.ok (),
         updateTree s tname { tree with changed := false },
         insertKey (pathJoin s.path (tname ++ ".json")) (.dataJson tree.data) fs1)

/-- The loop of `JsonStore::save` (src/store.rs lines 276-282): `save_tree`
for every registered collection in registry order, stopping at the first
failure.  Writes are taken to succeed (no claim involves `save` under
failing I/O). -/
def saveLoop (s : JsonStore) (fs : FS) :
    List (String × Info) → Except JsonStoreError Unit × JsonStore × FS
  | [] => (.ok (), s, fs)
  | (key, _) :: rest =>
    match s.save_tree fs key true true with
    | (.ok _, s', fs') => saveLoop s' fs' rest
    | (.error e, s', fs') => (.error e, s', fs')

/-- `JsonStore::save`. -/
def JsonStore.save (s : JsonStore) (fs : FS) :
    Except JsonStoreError Unit × JsonStore × FS :=
  saveLoop s fs s.infos

/-- The per-collection loop of `JsonStore::load` (src/store.rs lines
110-123): read the sequence marker (missing ⇒ 0) and the data file
(missing ⇒ empty map), and build the tree with `changed = false`. -/
def loadTrees (fs : FS) (path : String) :
    List (String × Info) → Except JsonStoreError (List (String × Tree))
  | [] => .ok []
  | (key, _) :: rest => do
    let sequence ← get_sequence fs (pathJoin path (key ++ ".seq"))
    let data := (← get_json_data fs (pathJoin path (key ++ ".json"))).getD []
    let rest' ← loadTrees fs path rest
    .ok ((key, Tree.mk sequence data false) :: rest')

/-- `JsonStore::load` (src/store.rs lines 103-130): read the registry
(missing ⇒ empty), then each registered collection's files. -/
def JsonStore.load (fs : FS) (path : String) : Except JsonStoreError JsonStore := do
  let infos := (← get_json_infos fs (pathJoin path INFOS_FILE)).getD []
  let trees ← loadTrees fs path infos
  .ok (JsonStore.mk path infos trees)

example : parseU64 "123" = some 123 := by decide
example : parseU64 "123\n" = none := by decide
example : parseU64 "+7" = some 7 := by decide
example : natToString 120 = "120" := by decide
example : parseU64 (natToString 0) = some 0 := by decide

theorem lookupKey_insertKey_self {α β : Type} [DecidableEq α] (k : α) (v : β)
    (l : List (α × β)) : lookupKey k (insertKey k v l) = some v := by
  induction l with
  | nil => simp [insertKey, lookupKey]
  | cons p rest ih =>
    obtain ⟨k', v'⟩ := p
    by_cases h : k = k'
    · subst h; simp [insertKey, lookupKey]
    · simp [insertKey, lookupKey, h, ih]

theorem lookupKey_insertKey_ne {α β : Type} [DecidableEq α] {k k' : α} (v : β)
    (l : List (α × β)) (h : k' ≠ k) :
    lookupKey k' (insertKey k v l) = lookupKey k' l := by
  induction l with
  | nil => simp [insertKey, lookupKey, h]
  | cons p rest ih =>
    obtain ⟨k0, v0⟩ := p
    by_cases h0 : k = k0
    · subst h0; simp [insertKey, lookupKey, h]
    · by_cases h1 : k' = k0
      · subst h1; simp [insertKey, lookupKey, h0, if_neg h0]
      · simp [insertKey, lookupKey, h0, h1, ih]

theorem mem_insertKey {α β : Type} [DecidableEq α] {k : α} {v : β}
    (l : List (α × β)) : ∀ p ∈ insertKey k v l, p = (k, v) ∨ p ∈ l := by
  induction l with
  | nil =>
    intro p hp
    simp only [insertKey, List.mem_singleton] at hp
    exact Or.inl hp
  | cons q rest ih =>
    intro p hp
    obtain ⟨k0, v0⟩ := q
    simp only [insertKey] at hp
    split_ifs at hp with h0
    · rcases List.mem_cons.mp hp with h | h
      · exact Or.inl h
      · exact Or.inr (List.mem_cons_of_mem _ h)
    · rcases List.mem_cons.mp hp with h | h
      · exact Or.inr (List.mem_cons.mpr (Or.inl h))
      · rcases ih p h with h' | h'
        · exact Or.inl h'
        · exact Or.inr (List.mem_cons_of_mem _ h')

theorem mem_modifyKey {α β : Type} [DecidableEq α] {k : α} {x : β}
    (l : List (α × β)) : ∀ p ∈ modifyKey k x l, p = (k, x) ∨ p ∈ l := by
  induction l with
  | nil =>
    intro p hp
    simp [modifyKey] at hp
  | cons q rest ih =>
    intro p hp
    obtain ⟨k0, v0⟩ := q
    simp only [modifyKey] at hp
    split_ifs at hp with h0
    · subst h0
      rcases List.mem_cons.mp hp with h | h
      · exact Or.inl h
      · exact Or.inr (List.mem_cons_of_mem _ h)
    · rcases List.mem_cons.mp hp with h | h
      · exact Or.inr (List.mem_cons.mpr (Or.inl h))
      · rcases ih p h with h' | h'
        · exact Or.inl h'
        · exact Or.inr (List.mem_cons_of_mem _ h')

theorem mem_removeKey {α β : Type} [DecidableEq α] {k : α}
    (l : List (α × β)) : ∀ p ∈ removeKey k l, p ∈ l := by
  induction l with
  | nil =>
    intro p hp
    simp [removeKey] at hp
  | cons q rest ih =>
    intro p hp
    obtain ⟨k0, v0⟩ := q
    simp only [removeKey] at hp
    split_ifs at hp with h0
    · exact List.mem_cons_of_mem _ hp
    · rcases List.mem_cons.mp hp with h | h
      · exact List.mem_cons.mpr (Or.inl h)
      · exact List.mem_cons_of_mem _ (ih p h)

theorem buildProjection_ok (fields : List String) (doc : JsonValue) :
    buildProjection fields doc = .ok (.obj (projList fields doc)) := by
  suffices h : ∀ (fs : List String) (acc : List (String × JsonValue)),
      fs.foldlM (fun a f => insertIntoObject a f (doc.index f)) (JsonValue.obj acc) =
        .ok (.obj (fs.foldl (fun a f => insertKey f (doc.index f) a) acc)) by
    simpa [buildProjection, projList] using h fields []
  intro fs
  induction fs with
  | nil => intro acc; rfl
  | cons f rest ih =>
    intro acc
    simp only [List.foldlM_cons, insertIntoObject, List.foldl_cons]
    exact ih (insertKey f (doc.index f) acc)

theorem scanRows_ok_or_dup (tname : String) (fields : List String) (n : JsonValue)
    (data : List (Nat × JsonValue)) :
    scanRows tname fields n data = .ok () ∨
      scanRows tname fields n data = .error (.duplicateUniqueFields tname) := by
  induction data with
  | nil => exact Or.inl rfl
  | cons p rest ih =>
    obtain ⟨k, row⟩ := p
    simp only [scanRows, buildProjection_ok, bind, Except.bind]
    by_cases h : n = .obj (projList fields row)
    · simp [h]
    · simpa [h] using ih

theorem scanRowsExcept_ok_or_dup (tname : String) (fields : List String) (n : JsonValue)
    (seq : Nat) (data : List (Nat × JsonValue)) :
    scanRowsExcept tname fields n seq data = .ok () ∨
      scanRowsExcept tname fields n seq data = .error (.duplicateUniqueFields tname) := by
  induction data with
  | nil => exact Or.inl rfl
  | cons p rest ih =>
    obtain ⟨k, row⟩ := p
    by_cases hk : k = seq
    · simpa [scanRowsExcept, hk] using ih
    · simp only [scanRowsExcept, if_neg hk, buildProjection_ok, bind, Except.bind]
      by_cases h : n = .obj (projList fields row)
      · simp [h]
      · simpa [h] using ih

theorem uniqueScan_ok_or_dup (tname : String) (doc : JsonValue)
    (data : List (Nat × JsonValue)) (groups : List (String × List String)) :
    uniqueScan tname doc data groups = .ok () ∨
      uniqueScan tname doc data groups = .error (.duplicateUniqueFields tname) := by
  induction groups with
  | nil => exact Or.inl rfl
  | cons g rest ih =>
    obtain ⟨gname, fields⟩ := g
    simp only [uniqueScan, buildProjection_ok, bind, Except.bind]
    rcases scanRows_ok_or_dup tname fields (.obj (projList fields doc)) data with h | h
    · simpa [h] using ih
    · simp [h]

theorem uniqueScanExcept_ok_or_dup (tname : String) (doc : JsonValue) (seq : Nat)
    (data : List (Nat × JsonValue)) (groups : List (String × List String)) :
    uniqueScanExcept tname doc seq data groups = .ok () ∨
      uniqueScanExcept tname doc seq data groups = .error (.duplicateUniqueFields tname) := by
  induction groups with
  | nil => exact Or.inl rfl
  | cons g rest ih =>
    obtain ⟨gname, fields⟩ := g
    simp only [uniqueScanExcept, buildProjection_ok, bind, Except.bind]
    rcases scanRowsExcept_ok_or_dup tname fields (.obj (projList fields doc)) seq data with
      h | h
    · simpa [h] using ih
    · simp [h]

theorem setSequenceField_ne_unableToMut (tname field : String) (seq : Nat)
    (v : JsonValue) (a : String) :
    setSequenceField tname field seq v ≠ .error (.unableToMutValue a) := by
  cases v with
  | obj fs =>
    by_cases h : ((JsonValue.obj fs).index field).isNull
    · simp [setSequenceField, h]
    · have hsome : ∃ x, lookupKey field fs = some x := by
        rcases hl : lookupKey field fs with _ | x
        · exfalso
          apply h
          simp [JsonValue.index, hl, JsonValue.isNull]
        · exact ⟨x, rfl⟩
      obtain ⟨x, hx⟩ := hsome
      simp [setSequenceField, h, JsonValue.get?, hx]
  | null => simp [setSequenceField, JsonValue.index, JsonValue.isNull]
  | bool b => simp [setSequenceField, JsonValue.index, JsonValue.isNull]
  | num n => simp [setSequenceField, JsonValue.index, JsonValue.isNull]
  | str s => simp [setSequenceField, JsonValue.index, JsonValue.isNull]
  | arr xs => simp [setSequenceField, JsonValue.index, JsonValue.isNull]

theorem setSequenceField_error_eq (tname field : String) (seq : Nat) (v : JsonValue)
    (e : JsonStoreError) (h : setSequenceField tname field seq v = .error e) :
    e = .unObjectValue := by
  cases v with
  | obj fs =>
    by_cases hn : ((JsonValue.obj fs).index field).isNull
    · simp [setSequenceField, hn] at h
    · have hsome : ∃ x, lookupKey field fs = some x := by
        rcases hl : lookupKey field fs with _ | x
        · exact absurd (by simp [JsonValue.index, hl, JsonValue.isNull]) hn
        · exact ⟨x, rfl⟩
      obtain ⟨x, hx⟩ := hsome
      simp [setSequenceField, hn, JsonValue.get?, hx] at h
  | null => simp only [setSequenceField, JsonValue.index, JsonValue.isNull, if_pos] at h
            exact (Except.error.inj h).symm
  | bool b => simp only [setSequenceField, JsonValue.index, JsonValue.isNull, if_pos] at h
              exact (Except.error.inj h).symm
  | num n => simp only [setSequenceField, JsonValue.index, JsonValue.isNull, if_pos] at h
             exact (Except.error.inj h).symm
  | str s => simp only [setSequenceField, JsonValue.index, JsonValue.isNull, if_pos] at h
             exact (Except.error.inj h).symm
  | arr xs => simp only [setSequenceField, JsonValue.index, JsonValue.isNull, if_pos] at h
              exact (Except.error.inj h).symm

theorem setSequenceField_ok_index (tname field : String) (seq : Nat) (v d : JsonValue)
    (h : setSequenceField tname field seq v = .ok d) :
    d.index field = .num (seq : Int) := by
  cases v with
  | obj fs =>
    by_cases hn : ((JsonValue.obj fs).index field).isNull
    · simp only [setSequenceField, hn, if_pos] at h
      rw [← Except.ok.inj h]
      simp [JsonValue.index, lookupKey_insertKey_self]
    · have hsome : ∃ x, lookupKey field fs = some x := by
        rcases hl : lookupKey field fs with _ | x
        · exact absurd (by simp [JsonValue.index, hl, JsonValue.isNull]) hn
        · exact ⟨x, rfl⟩
      obtain ⟨x, hx⟩ := hsome
      simp only [setSequenceField, hn, JsonValue.get?, hx, if_neg] at h
      rw [← Except.ok.inj h]
      simp [JsonValue.index, lookupKey_insertKey_self]
  | null => simp [setSequenceField, JsonValue.index, JsonValue.isNull] at h
  | bool b => simp [setSequenceField, JsonValue.index, JsonValue.isNull] at h
  | num n => simp [setSequenceField, JsonValue.index, JsonValue.isNull] at h
  | str s => simp [setSequenceField, JsonValue.index, JsonValue.isNull] at h
  | arr xs => simp [setSequenceField, JsonValue.index, JsonValue.isNull] at h

/-- Exhaustive case analysis of `JsonStore::insert`: the six outcomes of
src/store.rs lines 133-192 with their exact pre- and post-states.  Note the
fifth outcome: the sequence counter is incremented before the fallible
sequence-field write, so the `UnObjectValue` failure leaves a mutated store. -/
theorem insert_cases (s : JsonStore) (tname : String) (v : JsonValue) :
    (lookupKey tname s.infos = none ∧
      s.insert tname v = (.error (.notFoundTree tname), s)) ∨
    (∃ info, lookupKey tname s.infos = some info ∧ lookupKey tname s.trees = none ∧
      s.insert tname v = (.error (.notFoundTree tname), s)) ∨
    (∃ info tree, lookupKey tname s.infos = some info ∧
      lookupKey tname s.trees = some tree ∧ info.capacity ≤ tree.data.length ∧
      s.insert tname v = (.error (.capacityExceeded tname), s)) ∨
    (∃ info tree, lookupKey tname s.infos = some info ∧
      lookupKey tname s.trees = some tree ∧ tree.data.length < info.capacity ∧
      uniqueScan tname v tree.data info.unique_fields =
        .error (.duplicateUniqueFields tname) ∧
      s.insert tname v = (.error (.duplicateUniqueFields tname), s)) ∨
    (∃ info tree, lookupKey tname s.infos = some info ∧
      lookupKey tname s.trees = some tree ∧ tree.data.length < info.capacity ∧
      uniqueScan tname v tree.data info.unique_fields = .ok () ∧
      setSequenceField tname info.sequence_field (tree.sequence + 1) v =
        .error .unObjectValue ∧
      s.insert tname v = (.error .unObjectValue,
        updateTree s tname { tree with sequence := tree.sequence + 1 })) ∨
    (∃ info tree d, lookupKey tname s.infos = some info ∧
      lookupKey tname s.trees = some tree ∧ tree.data.length < info.capacity ∧
      uniqueScan tname v tree.data info.unique_fields = .ok () ∧
      setSequenceField tname info.sequence_field (tree.sequence + 1) v = .ok d ∧
      s.insert tname v = (.ok (tree.sequence + 1),
        updateTree s tname
          ⟨tree.sequence + 1, insertKey (tree.sequence + 1) d tree.data, true⟩)) := by
  cases hinfo : lookupKey tname s.infos with
  | none => exact Or.inl ⟨rfl, by simp [JsonStore.insert, hinfo]⟩
  | some info =>
    cases htree : lookupKey tname s.trees with
    | none =>
      exact Or.inr (Or.inl ⟨info, rfl, rfl, by simp [JsonStore.insert, hinfo, htree]⟩)
    | some tree =>
      by_cases hcap : info.capacity ≤ tree.data.length
      · exact Or.inr (Or.inr (Or.inl ⟨info, tree, rfl, rfl, hcap,
          by simp [JsonStore.insert, hinfo, htree, hcap]⟩))
      · have hlt : tree.data.length < info.capacity := Nat.lt_of_not_le hcap
        cases hscan : uniqueScan tname v tree.data info.unique_fields with
        | error e =>
          have hdup : e = .duplicateUniqueFields tname := by
            rcases uniqueScan_ok_or_dup tname v tree.data info.unique_fields with h | h
            · rw [hscan] at h; cases h
            · rw [hscan] at h; exact Except.error.inj h
          subst hdup
          exact Or.inr (Or.inr (Or.inr (Or.inl ⟨info, tree, rfl, rfl, hlt, hscan,
            by simp [JsonStore.insert, hinfo, htree, hcap, hscan]⟩)))
        | ok u =>
          cases u
          cases hset : setSequenceField tname info.sequence_field (tree.sequence + 1) v with
          | error e =>
            have he : e = .unObjectValue := setSequenceField_error_eq _ _ _ _ _ hset
            subst he
            exact Or.inr (Or.inr (Or.inr (Or.inr (Or.inl
              ⟨info, tree, rfl, rfl, hlt, hscan,
               hset, by simp [JsonStore.insert, hinfo, htree, hcap, hscan, hset]⟩))))
          | ok d =>
            exact Or.inr (Or.inr (Or.inr (Or.inr (Or.inr
              ⟨info, tree, d, rfl, rfl, hlt, hscan, hset,
               by simp [JsonStore.insert, hinfo, htree, hcap, hscan, hset]⟩))))

/-- Exhaustive case analysis of `JsonStore::update` (src/store.rs lines
195-247): every failure leaves the store untouched; success replaces the
stored document wholesale and sets the dirty flag. -/
theorem update_cases (s : JsonStore) (tname : String) (v : JsonValue) :
    (lookupKey tname s.infos = none ∧
      s.update tname v = (.error (.notFoundTree tname), s)) ∨
    (∃ info, lookupKey tname s.infos = some info ∧ lookupKey tname s.trees = none ∧
      s.update tname v = (.error (.notFoundTree tname), s)) ∨
    (∃ info tree, lookupKey tname s.infos = some info ∧
      lookupKey tname s.trees = some tree ∧
      (v.index info.sequence_field).asU64 = none ∧
      s.update tname v = (.error (.sequenceNotExist tname), s)) ∨
    (∃ info tree seq, lookupKey tname s.infos = some info ∧
      lookupKey tname s.trees = some tree ∧
      (v.index info.sequence_field).asU64 = some seq ∧
      containsKey seq tree.data = false ∧
      s.update tname v = (.error (.sequenceNotExist tname), s)) ∨
    (∃ info tree seq, lookupKey tname s.infos = some info ∧
      lookupKey tname s.trees = some tree ∧
      (v.index info.sequence_field).asU64 = some seq ∧
      containsKey seq tree.data = true ∧
      uniqueScanExcept tname v seq tree.data info.unique_fields =
        .error (.duplicateUniqueFields tname) ∧
      s.update tname v = (.error (.duplicateUniqueFields tname), s)) ∨
    (∃ info tree seq, lookupKey tname s.infos = some info ∧
      lookupKey tname s.trees = some tree ∧
      (v.index info.sequence_field).asU64 = some seq ∧
      containsKey seq tree.data = true ∧
      uniqueScanExcept tname v seq tree.data info.unique_fields = .ok () ∧
      s.update tname v = (.ok (),
        updateTree s tname { tree with data := modifyKey seq v tree.data,
                                       changed := true })) := by
  cases hinfo : lookupKey tname s.infos with
  | none => exact Or.inl ⟨rfl, by simp [JsonStore.update, hinfo]⟩
  | some info =>
    cases htree : lookupKey tname s.trees with
    | none =>
      exact Or.inr (Or.inl ⟨info, rfl, rfl, by simp [JsonStore.update, hinfo, htree]⟩)
    | some tree =>
      cases hseq : (v.index info.sequence_field).asU64 with
      | none =>
        exact Or.inr (Or.inr (Or.inl ⟨info, tree, rfl, rfl, hseq,
          by simp [JsonStore.update, hinfo, htree, hseq]⟩))
      | some seq =>
        cases hmem : containsKey seq tree.data with
        | false =>
          exact Or.inr (Or.inr (Or.inr (Or.inl ⟨info, tree, seq, rfl, rfl, hseq, hmem,
            by simp [JsonStore.update, hinfo, htree, hseq, hmem]⟩)))
        | true =>
          cases hscan : uniqueScanExcept tname v seq tree.data info.unique_fields with
          | error e =>
            have hdup : e = .duplicateUniqueFields tname := by
              rcases uniqueScanExcept_ok_or_dup tname v seq tree.data info.unique_fields
                with h | h
              · rw [hscan] at h; cases h
              · rw [hscan] at h; exact Except.error.inj h
            subst hdup
            exact Or.inr (Or.inr (Or.inr (Or.inr (Or.inl
              ⟨info, tree, seq, rfl, rfl, hseq, hmem, hscan,
               by simp [JsonStore.update, hinfo, htree, hseq, hmem, hscan]⟩))))
          | ok u =>
            cases u
            exact Or.inr (Or.inr (Or.inr (Or.inr (Or.inr
              ⟨info, tree, seq, rfl, rfl, hseq, hmem, hscan,
               by simp [JsonStore.update, hinfo, htree, hseq, hmem, hscan]⟩))))

/-- Exhaustive case analysis of `JsonStore::delete` (src/store.rs lines
249-259). -/
theorem delete_cases (s : JsonStore) (tname : String) (sequence : Nat) :
    (lookupKey tname s.trees = none ∧
      s.delete tname sequence = (.error (.notFoundTree tname), s)) ∨
    (∃ tree, lookupKey tname s.trees = some tree ∧
      containsKey sequence tree.data = false ∧
      s.delete tname sequence = (.error (.sequenceNotExist tname), s)) ∨
    (∃ tree, lookupKey tname s.trees = some tree ∧
      containsKey sequence tree.data = true ∧
      s.delete tname sequence = (.ok (),
        updateTree s tname { tree with data := removeKey sequence tree.data,
                                       changed := true })) := by
  cases htree : lookupKey tname s.trees with
  | none => exact Or.inl ⟨rfl, by simp [JsonStore.delete, htree]⟩
  | some tree =>
    cases hmem : containsKey sequence tree.data with
    | false =>
      exact Or.inr (Or.inl ⟨tree, rfl, hmem,
        by simp [JsonStore.delete, htree, hmem]⟩)
    | true =>
      exact Or.inr (Or.inr ⟨tree, rfl, hmem,
        by simp [JsonStore.delete, htree, hmem]⟩)

theorem lookupKey_mem {α β : Type} [DecidableEq α] {k : α} {w : β} :
    ∀ {l : List (α × β)}, lookupKey k l = some w → (k, w) ∈ l := by
  intro l
  induction l with
  | nil => intro h; cases h
  | cons p rest ih =>
    intro h
    obtain ⟨k0, v0⟩ := p
    by_cases h0 : k = k0
    · subst h0
      simp only [lookupKey, if_pos rfl] at h
      exact (Option.some.inj h) ▸ List.mem_cons_self _ _
    · simp only [lookupKey, if_neg h0] at h
      exact List.mem_cons_of_mem _ (ih h)

theorem containsKey_mem {α β : Type} [DecidableEq α] {k : α} {l : List (α × β)}
    (h : containsKey k l = true) : ∃ w, lookupKey k l = some w ∧ (k, w) ∈ l := by
  unfold containsKey at h
  rcases ho : lookupKey k l with _ | w
  · rw [ho] at h; cases h
  · exact ⟨w, rfl, lookupKey_mem ho⟩

/-- A one-collection sample store: collection `t`, sequence field `id`,
no uniqueness groups, capacity 2, currently empty and clean. -/
def sampleStore : JsonStore :=
  ⟨"r", [("t", ⟨"id", [], 2⟩)], [("t", ⟨0, [], false⟩)]⟩

/-- A one-collection store with capacity 1 and empty data, used to exhibit
insert's partially-mutated failure state. -/
def c1Store : JsonStore :=
  ⟨"r", [("t", ⟨"id", [], 1⟩)], [("t", ⟨0, [], false⟩)]⟩

/-- C1, counterexample: inserting the non-object document `"x"` into the
empty collection `t` of `c1Store` passes the capacity check and the (empty)
uniqueness scan, increments the sequence counter, and only then fails
`UnObjectValue` at the sequence-field write (src/store.rs lines 172-185) —
so this failed insert leaves the collection's in-memory state mutated
(sequence 1 instead of 0), refuting all-or-nothing for every failure. -/
theorem c1_counterexample :
    (JsonStore.insert c1Store "t" (.str "x")).1 = .error .unObjectValue ∧
    (JsonStore.insert c1Store "t" (.str "x")).2 ≠ c1Store := by decide

/-- C1 (amended): every failed `update` leaves the store exactly as it was;
a failed `insert` leaves the store unchanged for every failure except the
not-object-shaped (`UnObjectValue`) failure at the sequence-field write,
which happens after the sequence counter was incremented: such a failed
insert leaves `data` and `changed` untouched but `sequence` incremented by
one. -/
theorem c1_amended_all_or_nothing :
    (∀ (s : JsonStore) (tname : String) (v : JsonValue) (e : JsonStoreError)
        (s' : JsonStore), s.update tname v = (.error e, s') → s' = s) ∧
    (∀ (s : JsonStore) (tname : String) (v : JsonValue) (e : JsonStoreError)
        (s' : JsonStore), s.insert tname v = (.error e, s') →
      e ≠ .unObjectValue → s' = s) ∧
    (∀ (s : JsonStore) (tname : String) (v : JsonValue) (s' : JsonStore),
      s.insert tname v = (.error .unObjectValue, s') →
      ∃ tree, lookupKey tname s.trees = some tree ∧
        s' = updateTree s tname { tree with sequence := tree.sequence + 1 }) := by
  refine ⟨?_, ?_, ?_⟩
  · intro s tname v e s' hup
    rcases update_cases s tname v with ⟨_, heq⟩ | ⟨_, _, _, heq⟩ |
      ⟨_, _, _, _, _, heq⟩ | ⟨_, _, _, _, _, _, _, heq⟩ |
      ⟨_, _, _, _, _, _, _, _, heq⟩ | ⟨_, _, _, _, _, _, _, _, heq⟩ <;>
      rw [hup] at heq
    case _ => exact (Prod.mk.inj heq).2
    case _ => exact (Prod.mk.inj heq).2
    case _ => exact (Prod.mk.inj heq).2
    case _ => exact (Prod.mk.inj heq).2
    case _ => exact (Prod.mk.inj heq).2
    case _ => exact absurd (Prod.mk.inj heq).1 (by simp)
  · intro s tname v e s' hins hne
    rcases insert_cases s tname v with ⟨_, heq⟩ | ⟨_, _, _, heq⟩ |
      ⟨_, _, _, _, _, heq⟩ | ⟨_, _, _, _, _, _, heq⟩ |
      ⟨_, _, _, _, _, _, _, heq⟩ | ⟨_, _, _, _, _, _, _, _, heq⟩ <;>
      rw [hins] at heq
    case _ => exact (Prod.mk.inj heq).2
    case _ => exact (Prod.mk.inj heq).2
    case _ => exact (Prod.mk.inj heq).2
    case _ => exact (Prod.mk.inj heq).2
    case _ =>
      exact absurd (Except.error.inj (Prod.mk.inj heq).1) hne
    case _ => exact absurd (Prod.mk.inj heq).1 (by simp)
  · intro s tname v s' hins
    rcases insert_cases s tname v with ⟨_, heq⟩ | ⟨_, _, _, heq⟩ |
      ⟨_, _, _, _, _, heq⟩ | ⟨_, _, _, _, _, _, heq⟩ |
      ⟨_, tree, _, htree, _, _, _, heq⟩ | ⟨_, _, _, _, _, _, _, _, heq⟩ <;>
      rw [hins] at heq
    case _ => exact absurd (Except.error.inj (Prod.mk.inj heq).1) (by simp)
    case _ => exact absurd (Except.error.inj (Prod.mk.inj heq).1) (by simp)
    case _ => exact absurd (Except.error.inj (Prod.mk.inj heq).1) (by simp)
    case _ => exact absurd (Except.error.inj (Prod.mk.inj heq).1) (by simp)
    case _ => exact ⟨tree, htree, (Prod.mk.inj heq).2⟩
    case _ => exact absurd (Prod.mk.inj heq).1 (by simp)

/-- C1 witness: the amended theorem applied to the concrete failing insert
of `c1_counterexample`, exhibiting the exact mutated post-state. -/
theorem c1_amended_witness :
    ∃ tree, lookupKey "t" c1Store.trees = some tree ∧
      (⟨"r", [("t", ⟨"id", [], 1⟩)], [("t", ⟨1, [], false⟩)]⟩ : JsonStore) =
        updateTree c1Store "t" { tree with sequence := tree.sequence + 1 } :=
  c1_amended_all_or_nothing.2.2 c1Store "t" (.str "x")
    ⟨"r", [("t", ⟨"id", [], 1⟩)], [("t", ⟨1, [], false⟩)]⟩ (by decide)

/-- C4: on a registered collection whose data map holds at least `capacity`
entries, `insert` fails with `CapacityExceeded` and returns the store
exactly as it was (data, sequence and the dirty flag unchanged) —
src/store.rs lines 145-147, before any mutation. -/
theorem c4_capacity_exceeded (s : JsonStore) (tname : String) (v : JsonValue)
    (info : Info) (tree : Tree)
    (hinfo : lookupKey tname s.infos = some info)
    (htree : lookupKey tname s.trees = some tree)
    (hcap : info.capacity ≤ tree.data.length) :
    s.insert tname v = (.error (.capacityExceeded tname), s) := by
  simp [JsonStore.insert, hinfo, htree, hcap]

/-- C4 witness: a collection with capacity 1 already holding one document
rejects any insert with `CapacityExceeded`, state untouched. -/
theorem c4_witness :
    JsonStore.insert
        ⟨"r", [("t", ⟨"id", [], 1⟩)], [("t", ⟨1, [(1, .obj [("id", .num 1)])], false⟩)]⟩
        "t" (.obj [("a", .num 7)]) =
      (.error (.capacityExceeded "t"),
       ⟨"r", [("t", ⟨"id", [], 1⟩)], [("t", ⟨1, [(1, .obj [("id", .num 1)])], false⟩)]⟩) :=
  c4_capacity_exceeded _ "t" _ ⟨"id", [], 1⟩ ⟨1, [(1, .obj [("id", .num 1)])], false⟩
    (by decide) (by decide) (by decide)

/-- The data-key invariant of spec §3: every key of `data` is at most the
collection's sequence high-water mark. -/
def treeInv (t : Tree) : Prop := ∀ p ∈ t.data, p.1 ≤ t.sequence

instance (t : Tree) : Decidable (treeInv t) :=
  inferInstanceAs (Decidable (∀ p ∈ t.data, p.1 ≤ t.sequence))

/-- C8: insert, update and delete all preserve the invariant that data keys
are ≤ the sequence high-water mark, and never decrease the sequence — on
every outcome, including failures (insert's partially-mutated
`UnObjectValue` failure only increments the sequence). -/
theorem c8_keys_le_sequence_invariant :
    (∀ (s : JsonStore) (tname : String) (v : JsonValue) (tree tree' : Tree),
      lookupKey tname s.trees = some tree →
      lookupKey tname (s.insert tname v).2.trees = some tree' →
      treeInv tree → treeInv tree' ∧ tree.sequence ≤ tree'.sequence) ∧
    (∀ (s : JsonStore) (tname : String) (v : JsonValue) (tree tree' : Tree),
      lookupKey tname s.trees = some tree →
      lookupKey tname (s.update tname v).2.trees = some tree' →
      treeInv tree → treeInv tree' ∧ tree.sequence ≤ tree'.sequence) ∧
    (∀ (s : JsonStore) (tname : String) (n : Nat) (tree tree' : Tree),
      lookupKey tname s.trees = some tree →
      lookupKey tname (s.delete tname n).2.trees = some tree' →
      treeInv tree → treeInv tree' ∧ tree.sequence ≤ tree'.sequence) := by
  refine ⟨?_, ?_, ?_⟩
  · intro s tname v tree tree' ht ht' hinv
    rcases insert_cases s tname v with ⟨_, heq⟩ | ⟨_, _, _, heq⟩ |
      ⟨_, _, _, _, _, heq⟩ | ⟨_, _, _, _, _, _, heq⟩ |
      ⟨i, t0, h1, h2, h3, h4, h5, heq⟩ | ⟨i, t0, d, h1, h2, h3, h4, h5, heq⟩
    · simp only [heq] at ht'
      cases Option.some.inj (ht.symm.trans ht'); exact ⟨hinv, Nat.le_refl _⟩
    · simp only [heq] at ht'
      cases Option.some.inj (ht.symm.trans ht'); exact ⟨hinv, Nat.le_refl _⟩
    · simp only [heq] at ht'
      cases Option.some.inj (ht.symm.trans ht'); exact ⟨hinv, Nat.le_refl _⟩
    · simp only [heq] at ht'
      cases Option.some.inj (ht.symm.trans ht'); exact ⟨hinv, Nat.le_refl _⟩
    · cases Option.some.inj (ht.symm.trans h2)
      simp only [heq, updateTree] at ht'
      rw [lookupKey_insertKey_self] at ht'
      cases Option.some.inj ht'
      refine ⟨fun p hp => Nat.le_succ_of_le (hinv p hp), Nat.le_succ _⟩
    · cases Option.some.inj (ht.symm.trans h2)
      simp only [heq, updateTree] at ht'
      rw [lookupKey_insertKey_self] at ht'
      cases Option.some.inj ht'
      refine ⟨?_, Nat.le_succ _⟩
      intro p hp
      rcases mem_insertKey _ p hp with h | h
      · rw [h]
      · exact Nat.le_succ_of_le (hinv p h)
  · intro s tname v tree tree' ht ht' hinv
    rcases update_cases s tname v with ⟨_, heq⟩ | ⟨_, _, _, heq⟩ |
      ⟨_, _, _, _, _, heq⟩ | ⟨_, _, _, _, _, _, _, heq⟩ |
      ⟨_, _, _, _, _, _, _, _, heq⟩ | ⟨i, t0, seq, h1, h2, h3, h4, h5, heq⟩
    · simp only [heq] at ht'
      cases Option.some.inj (ht.symm.trans ht'); exact ⟨hinv, Nat.le_refl _⟩
    · simp only [heq] at ht'
      cases Option.some.inj (ht.symm.trans ht'); exact ⟨hinv, Nat.le_refl _⟩
    · simp only [heq] at ht'
      cases Option.some.inj (ht.symm.trans ht'); exact ⟨hinv, Nat.le_refl _⟩
    · simp only [heq] at ht'
      cases Option.some.inj (ht.symm.trans ht'); exact ⟨hinv, Nat.le_refl _⟩
    · simp only [heq] at ht'
      cases Option.some.inj (ht.symm.trans ht'); exact ⟨hinv, Nat.le_refl _⟩
    · cases Option.some.inj (ht.symm.trans h2)
      simp only [heq, updateTree] at ht'
      rw [lookupKey_insertKey_self] at ht'
      cases Option.some.inj ht'
      refine ⟨?_, Nat.le_refl _⟩
      intro p hp
      rcases mem_modifyKey _ p hp with h | h
      · obtain ⟨w, _, hwmem⟩ := containsKey_mem h4
        rw [h]
        exact hinv (seq, w) hwmem
      · exact hinv p h
  · intro s tname n tree tree' ht ht' hinv
    rcases delete_cases s tname n with ⟨_, heq⟩ | ⟨_, _, _, heq⟩ |
      ⟨t0, h1, h2, heq⟩
    · simp only [heq] at ht'
      cases Option.some.inj (ht.symm.trans ht'); exact ⟨hinv, Nat.le_refl _⟩
    · simp only [heq] at ht'
      cases Option.some.inj (ht.symm.trans ht'); exact ⟨hinv, Nat.le_refl _⟩
    · cases Option.some.inj (ht.symm.trans h1)
      simp only [heq, updateTree] at ht'
      rw [lookupKey_insertKey_self] at ht'
      cases Option.some.inj ht'
      exact ⟨fun p hp => hinv p (mem_removeKey _ p hp), Nat.le_refl _⟩

/-- C8 witness: the insert part of the invariant theorem applied to a
successful concrete insert into the empty sample collection. -/
theorem c8_witness :
    treeInv ⟨1, [(1, JsonValue.obj [("id", JsonValue.num 1)])], true⟩ ∧
      (Tree.mk 0 [] false).sequence ≤
        (Tree.mk 1 [(1, JsonValue.obj [("id", JsonValue.num 1)])] true).sequence :=
  c8_keys_le_sequence_invariant.1 sampleStore "t" (.obj [])
    ⟨0, [], false⟩ ⟨1, [(1, JsonValue.obj [("id", JsonValue.num 1)])], true⟩
    (by decide) (by decide) (by decide)

/-- C9: a sequence marker file whose contents do not parse as a `u64`
(non-numeric text, a trailing newline, a sign, overflow, …) is silently
read as sequence 0 by `get_sequence` — exactly like a missing file, and
never an error (src/store.rs lines 338-347, `parse().unwrap_or_default()`). -/
theorem c9_unparseable_sequence_reads_zero :
    (∀ (fs : FS) (file : String) (s : String),
      lookupKey file fs = some (.text s) → parseU64 s = none →
      get_sequence fs file = .ok 0) ∧
    (∀ (fs : FS) (file : String),
      lookupKey file fs = none → get_sequence fs file = .ok 0) := by
  constructor
  · intro fs file s hl hp
    simp [get_sequence, hl, hp]
  · intro fs file hl
    simp [get_sequence, hl]

/-- C9 witness: the file `r/t.seq` containing `"123\n"` (a number followed
by a newline, which `str::parse::<u64>` rejects) reads as sequence 0, and so
does a missing file. -/
theorem c9_witness :
    get_sequence [("r/t.seq", .text "123\n")] "r/t.seq" = .ok 0 ∧
      get_sequence [] "r/t.seq" = .ok 0 :=
  ⟨c9_unparseable_sequence_reads_zero.1 [("r/t.seq", .text "123\n")] "r/t.seq"
      "123\n" (by decide) (by decide),
   c9_unparseable_sequence_reads_zero.2 [] "r/t.seq" (by decide)⟩

/-- C10: the `UnObjectValue` branches inside the uniqueness scans of insert
and update are unreachable — the scans only ever return success or
`DuplicateUniqueFields` (the projections are built into freshly created
empty JSON objects, and indexing candidate and stored documents is total) —
and the `UnableToMutValue` branch of insert is unreachable (the else branch
runs only when the sequence field holds a non-null value, which implies an
object containing that field, so `get_mut` succeeds). -/
theorem c10_unobject_and_mut_branches_unreachable :
    (∀ (tname : String) (doc : JsonValue) (data : List (Nat × JsonValue))
        (groups : List (String × List String)),
      uniqueScan tname doc data groups = .ok () ∨
        uniqueScan tname doc data groups = .error (.duplicateUniqueFields tname)) ∧
    (∀ (tname : String) (doc : JsonValue) (seq : Nat)
        (data : List (Nat × JsonValue)) (groups : List (String × List String)),
      uniqueScanExcept tname doc seq data groups = .ok () ∨
        uniqueScanExcept tname doc seq data groups =
          .error (.duplicateUniqueFields tname)) ∧
    (∀ (s : JsonStore) (tname a : String) (v : JsonValue),
      (s.insert tname v).1 ≠ .error (.unableToMutValue a)) := by
  refine ⟨fun t doc data groups => uniqueScan_ok_or_dup t doc data groups,
    fun t doc seq data groups => uniqueScanExcept_ok_or_dup t doc seq data groups, ?_⟩
  intro s tname a v
  rcases insert_cases s tname v with ⟨_, heq⟩ | ⟨_, _, _, heq⟩ |
    ⟨_, _, _, _, _, heq⟩ | ⟨_, _, _, _, _, _, heq⟩ |
    ⟨_, _, _, _, _, _, _, heq⟩ | ⟨_, _, _, _, _, _, _, _, heq⟩ <;>
    simp [heq]

/-- C10 witness: the third part applied to a concrete insert whose document
carries a non-null sequence field (the else branch that could in principle
fail `UnableToMutValue`). -/
theorem c10_witness :
    (JsonStore.insert sampleStore "t" (.obj [("id", .num 9)])).1 ≠
      .error (.unableToMutValue "t") :=
  c10_unobject_and_mut_branches_unreachable.2.2 sampleStore "t" "t"
    (.obj [("id", .num 9)])

/-- A run of inserts into one collection: each call threads the post-state
of the previous one; the list of results is returned with the final store. -/
def insertRun (s : JsonStore) (tname : String) :
    List JsonValue → List (Except JsonStoreError Nat) × JsonStore
  | [] => ([], s)
  | v :: vs =>
    ((s.insert tname v).1 :: (insertRun (s.insert tname v).2 tname vs).1,
     (insertRun (s.insert tname v).2 tname vs).2)

/-- The sequence numbers returned by the successful inserts of a run. -/
def okVals : List (Except JsonStoreError Nat) → List Nat
  | [] => []
  | .ok n :: rest => n :: okVals rest
  | .error _ :: rest => okVals rest

theorem insert_ok_spec (s : JsonStore) (tname : String) (v : JsonValue) (n : Nat)
    (s₂ : JsonStore) (h : s.insert tname v = (.ok n, s₂)) :
    ∃ info tree d, lookupKey tname s.infos = some info ∧
      lookupKey tname s.trees = some tree ∧
      n = tree.sequence + 1 ∧
      setSequenceField tname info.sequence_field n v = .ok d ∧
      s₂ = updateTree s tname ⟨n, insertKey n d tree.data, true⟩ := by
  rcases insert_cases s tname v with ⟨_, heq⟩ | ⟨_, _, _, heq⟩ |
    ⟨_, _, _, _, _, heq⟩ | ⟨_, _, _, _, _, _, heq⟩ |
    ⟨_, _, _, _, _, _, _, heq⟩ | ⟨i, t0, d, h1, h2, h3, h4, h5, heq⟩ <;>
    rw [h] at heq
  case _ => exact absurd (Prod.mk.inj heq).1 (by simp)
  case _ => exact absurd (Prod.mk.inj heq).1 (by simp)
  case _ => exact absurd (Prod.mk.inj heq).1 (by simp)
  case _ => exact absurd (Prod.mk.inj heq).1 (by simp)
  case _ => exact absurd (Prod.mk.inj heq).1 (by simp)
  case _ =>
    obtain ⟨hn, hs⟩ := Prod.mk.inj heq
    have hn' : n = t0.sequence + 1 := Except.ok.inj hn
    subst hn'
    exact ⟨i, t0, d, h1, h2, rfl, h5, hs⟩

theorem insert_any_tree_step (s : JsonStore) (tname : String) (v : JsonValue)
    (tree : Tree) (ht : lookupKey tname s.trees = some tree) :
    ∃ tree', lookupKey tname (s.insert tname v).2.trees = some tree' ∧
      tree.sequence ≤ tree'.sequence ∧
      ∀ n, (s.insert tname v).1 = .ok n →
        n = tree.sequence + 1 ∧ tree'.sequence = n := by
  rcases insert_cases s tname v with ⟨_, heq⟩ | ⟨_, _, _, heq⟩ |
    ⟨_, _, _, _, _, heq⟩ | ⟨_, _, _, _, _, _, heq⟩ |
    ⟨i, t0, h1, h2, h3, h4, h5, heq⟩ | ⟨i, t0, d, h1, h2, h3, h4, h5, heq⟩
  · exact ⟨tree, by simp [heq, ht], Nat.le_refl _, fun n hn => by simp [heq] at hn⟩
  · exact ⟨tree, by simp [heq, ht], Nat.le_refl _, fun n hn => by simp [heq] at hn⟩
  · exact ⟨tree, by simp [heq, ht], Nat.le_refl _, fun n hn => by simp [heq] at hn⟩
  · exact ⟨tree, by simp [heq, ht], Nat.le_refl _, fun n hn => by simp [heq] at hn⟩
  · cases Option.some.inj (ht.symm.trans h2)
    refine ⟨{ tree with sequence := tree.sequence + 1 }, ?_, Nat.le_succ _, ?_⟩
    · simp [heq, updateTree, lookupKey_insertKey_self]
    · intro n hn; rw [heq] at hn; cases hn
  · cases Option.some.inj (ht.symm.trans h2)
    refine ⟨⟨tree.sequence + 1, insertKey (tree.sequence + 1) d tree.data, true⟩,
      ?_, Nat.le_succ _, ?_⟩
    · simp [heq, updateTree, lookupKey_insertKey_self]
    · intro n hn
      rw [heq] at hn
      cases Except.ok.inj hn
      exact ⟨rfl, rfl⟩

theorem insertRun_ok_vals_increasing (tname : String) :
    ∀ (vs : List JsonValue) (s : JsonStore) (tree : Tree),
      lookupKey tname s.trees = some tree →
      (∀ m ∈ okVals (insertRun s tname vs).1, tree.sequence < m) ∧
      List.Pairwise (· < ·) (okVals (insertRun s tname vs).1) := by
  intro vs
  induction vs with
  | nil =>
    intro s tree ht
    constructor
    · intro m hm; simp [insertRun, okVals] at hm
    · simp [insertRun, okVals]
  | cons v rest ih =>
    intro s tree ht
    obtain ⟨tree', ht', hle, hok⟩ := insert_any_tree_step s tname v tree ht
    obtain ⟨ih1, ih2⟩ := ih (s.insert tname v).2 tree' ht'
    cases hr : (s.insert tname v).1 with
    | error e =>
      constructor
      · intro m hm
        simp only [insertRun, hr, okVals] at hm
        exact Nat.lt_of_le_of_lt hle (ih1 m hm)
      · simpa only [insertRun, hr, okVals] using ih2
    | ok n =>
      obtain ⟨hn1, hn2⟩ := hok n hr
      constructor
      · intro m hm
        simp only [insertRun, hr, okVals, List.mem_cons] at hm
        rcases hm with rfl | hm
        · exact hn1 ▸ Nat.lt_succ_of_le (Nat.le_refl _)
        · exact Nat.lt_of_le_of_lt hle (ih1 m hm)
      · simp only [insertRun, hr, okVals]
        refine List.Pairwise.cons ?_ ih2
        intro m hm
        have := ih1 m hm
        omega

/-- C2: a successful insert returns the previous high-water sequence plus
one; the stored document sits under that key with its sequence field
unconditionally overwritten to that number, whatever the caller supplied
there; and across any run of inserts into one collection the successfully
returned sequence numbers are strictly increasing (hence pairwise
distinct). -/
theorem c2_insert_sequence_assignment :
    (∀ (s : JsonStore) (tname : String) (v : JsonValue) (n : Nat) (s₂ : JsonStore),
      s.insert tname v = (.ok n, s₂) →
      ∃ info tree d, lookupKey tname s.infos = some info ∧
        lookupKey tname s.trees = some tree ∧
        n = tree.sequence + 1 ∧
        lookupKey tname s₂.trees = some ⟨n, insertKey n d tree.data, true⟩ ∧
        lookupKey n (insertKey n d tree.data) = some d ∧
        d.index info.sequence_field = .num (n : Int)) ∧
    (∀ (tname : String) (vs : List JsonValue) (s : JsonStore) (tree : Tree),
      lookupKey tname s.trees = some tree →
      List.Pairwise (· < ·) (okVals (insertRun s tname vs).1)) := by
  constructor
  · intro s tname v n s₂ h
    obtain ⟨info, tree, d, h1, h2, h3, h4, h5⟩ := insert_ok_spec s tname v n s₂ h
    refine ⟨info, tree, d, h1, h2, h3, ?_, lookupKey_insertKey_self _ _ _,
      setSequenceField_ok_index _ _ _ _ _ h4⟩
    rw [h5]
    simp [updateTree, lookupKey_insertKey_self]
  · intro tname vs s tree ht
    exact (insertRun_ok_vals_increasing tname vs s tree ht).2

/-- C2 witness: a concrete successful insert (document supplied with a
bogus sequence value 99, overwritten to 1) and a concrete two-insert run
returning [1, 2]. -/
theorem c2_witness :
    (∃ info tree d, lookupKey "t" sampleStore.infos = some info ∧
      lookupKey "t" sampleStore.trees = some tree ∧
      1 = tree.sequence + 1 ∧
      lookupKey "t"
          (JsonStore.mk "r" [("t", ⟨"id", [], 2⟩)]
            [("t", ⟨1, [(1, .obj [("id", .num 1)])], true⟩)]).trees =
        some ⟨1, insertKey 1 d tree.data, true⟩ ∧
      lookupKey 1 (insertKey 1 d tree.data) = some d ∧
      d.index info.sequence_field = .num (1 : Int)) ∧
    List.Pairwise (· < ·)
      (okVals (insertRun sampleStore "t" [.obj [("id", .num 99)], .obj []]).1) :=
  ⟨c2_insert_sequence_assignment.1 sampleStore "t" (.obj []) 1
      (JsonStore.mk "r" [("t", ⟨"id", [], 2⟩)]
        [("t", ⟨1, [(1, .obj [("id", .num 1)])], true⟩)]) (by decide),
   c2_insert_sequence_assignment.2 "t" [.obj [("id", .num 99)], .obj []]
      sampleStore ⟨0, [], false⟩ (by decide)⟩

theorem projList_congr (fields : List String) (a b : JsonValue)
    (h : ∀ f ∈ fields, a.index f = b.index f) :
    projList fields a = projList fields b := by
  suffices hh : ∀ (fs : List String) (acc : List (String × JsonValue)),
      (∀ f ∈ fs, a.index f = b.index f) →
      fs.foldl (fun ac f => insertKey f (a.index f) ac) acc =
        fs.foldl (fun ac f => insertKey f (b.index f) ac) acc by
    exact hh fields [] h
  intro fs
  induction fs with
  | nil => intro acc _; rfl
  | cons f rest ih =>
    intro acc hf
    simp only [List.foldl_cons]
    rw [hf f (List.mem_cons_self _ _)]
    exact ih _ (fun g hg => hf g (List.mem_cons_of_mem _ hg))

theorem scanRows_finds_dup (tname : String) (fields : List String) (n : JsonValue)
    (data : List (Nat × JsonValue)) (k : Nat) (row : JsonValue)
    (hmem : (k, row) ∈ data) (heq : n = .obj (projList fields row)) :
    scanRows tname fields n data = .error (.duplicateUniqueFields tname) := by
  induction data with
  | nil => cases hmem
  | cons p rest ih =>
    obtain ⟨k0, r0⟩ := p
    simp only [scanRows, buildProjection_ok, bind, Except.bind]
    by_cases h : n = .obj (projList fields r0)
    · simp [h]
    · have hmem' : (k, row) ∈ rest := by
        rcases List.mem_cons.mp hmem with h' | h'
        · exact absurd (heq.trans (by rw [(Prod.mk.inj h').2])) h
        · exact h'
      simpa [h] using ih hmem'

theorem scanRowsExcept_finds_dup (tname : String) (fields : List String)
    (n : JsonValue) (seq : Nat) (data : List (Nat × JsonValue)) (k : Nat)
    (row : JsonValue) (hmem : (k, row) ∈ data) (hk : k ≠ seq)
    (heq : n = .obj (projList fields row)) :
    scanRowsExcept tname fields n seq data = .error (.duplicateUniqueFields tname) := by
  induction data with
  | nil => cases hmem
  | cons p rest ih =>
    obtain ⟨k0, r0⟩ := p
    by_cases hk0 : k0 = seq
    · have hmem' : (k, row) ∈ rest := by
        rcases List.mem_cons.mp hmem with h' | h'
        · exact absurd ((Prod.mk.inj h').1.trans hk0) hk
        · exact h'
      simpa [scanRowsExcept, hk0] using ih hmem'
    · simp only [scanRowsExcept, if_neg hk0, buildProjection_ok, bind, Except.bind]
      by_cases h : n = .obj (projList fields r0)
      · simp [h]
      · have hmem' : (k, row) ∈ rest := by
          rcases List.mem_cons.mp hmem with h' | h'
          · exact absurd (heq.trans (by rw [(Prod.mk.inj h').2])) h
          · exact h'
        simpa [h] using ih hmem'

theorem uniqueScan_finds_dup (tname : String) (doc : JsonValue)
    (data : List (Nat × JsonValue)) (groups : List (String × List String))
    (gname : String) (fields : List String) (k : Nat) (row : JsonValue)
    (hg : (gname, fields) ∈ groups) (hmem : (k, row) ∈ data)
    (heq : projList fields doc = projList fields row) :
    uniqueScan tname doc data groups = .error (.duplicateUniqueFields tname) := by
  induction groups with
  | nil => cases hg
  | cons g rest ih =>
    obtain ⟨g0, f0⟩ := g
    simp only [uniqueScan, buildProjection_ok, bind, Except.bind]
    rcases List.mem_cons.mp hg with h' | h'
    · obtain ⟨-, hf0⟩ := Prod.mk.inj h'
      subst hf0
      have hdup := scanRows_finds_dup tname fields (.obj (projList fields doc))
        data k row hmem (by rw [heq])
      simp [hdup]
    · rcases scanRows_ok_or_dup tname f0 (.obj (projList f0 doc)) data with h | h
      · simpa [h] using ih h'
      · simp [h]

theorem uniqueScanExcept_finds_dup (tname : String) (doc : JsonValue) (seq : Nat)
    (data : List (Nat × JsonValue)) (groups : List (String × List String))
    (gname : String) (fields : List String) (k : Nat) (row : JsonValue)
    (hg : (gname, fields) ∈ groups) (hmem : (k, row) ∈ data) (hk : k ≠ seq)
    (heq : projList fields doc = projList fields row) :
    uniqueScanExcept tname doc seq data groups =
      .error (.duplicateUniqueFields tname) := by
  induction groups with
  | nil => cases hg
  | cons g rest ih =>
    obtain ⟨g0, f0⟩ := g
    simp only [uniqueScanExcept, buildProjection_ok, bind, Except.bind]
    rcases List.mem_cons.mp hg with h' | h'
    · obtain ⟨-, hf0⟩ := Prod.mk.inj h'
      subst hf0
      have hdup := scanRowsExcept_finds_dup tname fields (.obj (projList fields doc))
        seq data k row hmem hk (by rw [heq])
      simp [hdup]
    · rcases scanRowsExcept_ok_or_dup tname f0 (.obj (projList f0 doc)) seq data with h | h
      · simpa [h] using ih h'
      · simp [h]

/-- An insert whose candidate projection over some uniqueness group equals
an existing row's projection fails `DuplicateUniqueFields` with the store
unchanged, provided the capacity check passed first. -/
theorem insert_rejects_proj_collision (s : JsonStore) (tname : String)
    (v : JsonValue) (info : Info) (tree : Tree) (gname : String)
    (fields : List String) (k : Nat) (row : JsonValue)
    (hinfo : lookupKey tname s.infos = some info)
    (htree : lookupKey tname s.trees = some tree)
    (hlt : tree.data.length < info.capacity)
    (hg : (gname, fields) ∈ info.unique_fields)
    (hmem : (k, row) ∈ tree.data)
    (heq : projList fields v = projList fields row) :
    s.insert tname v = (.error (.duplicateUniqueFields tname), s) := by
  have hcap : ¬ info.capacity ≤ tree.data.length := Nat.not_le.mpr hlt
  have hscan := uniqueScan_finds_dup tname v tree.data info.unique_fields
    gname fields k row hg hmem heq
  simp [JsonStore.insert, hinfo, htree, hcap, hscan]

/-- The analogous fact for update, excluding the row under the candidate's
own sequence key. -/
theorem update_rejects_proj_collision (s : JsonStore) (tname : String)
    (v : JsonValue) (info : Info) (tree : Tree) (seq : Nat) (gname : String)
    (fields : List String) (k : Nat) (row : JsonValue)
    (hinfo : lookupKey tname s.infos = some info)
    (htree : lookupKey tname s.trees = some tree)
    (hseq : (v.index info.sequence_field).asU64 = some seq)
    (hmemseq : containsKey seq tree.data = true)
    (hg : (gname, fields) ∈ info.unique_fields)
    (hmem : (k, row) ∈ tree.data) (hk : k ≠ seq)
    (heq : projList fields v = projList fields row) :
    s.update tname v = (.error (.duplicateUniqueFields tname), s) := by
  have hscan := uniqueScanExcept_finds_dup tname v seq tree.data info.unique_fields
    gname fields k row hg hmem hk heq
  simp [JsonStore.update, hinfo, htree, hseq, hmemseq, hscan]

/-- A store at capacity (1) holding a document with email "a"; inserting a
duplicate email here trips the capacity check before the uniqueness scan. -/
def c3Store : JsonStore :=
  ⟨"r", [("t", ⟨"id", [("email", ["email"])], 1⟩)],
   [("t", ⟨1, [(1, .obj [("id", .num 1), ("email", .str "a")])], false⟩)]⟩

/-- C3, counterexample: the candidate's composite projection over group
`email` is structurally equal to the stored document's projection, yet the
insert fails with `CapacityExceeded`, not `DuplicateUniqueFields`, because
the capacity check (src/store.rs line 145) precedes the uniqueness scan
(line 151) and the collection is at capacity. -/
theorem c3_counterexample :
    projList ["email"] (JsonValue.obj [("email", .str "a")]) =
      projList ["email"]
        (JsonValue.obj [("id", .num 1), ("email", .str "a")]) ∧
    JsonStore.insert c3Store "t" (.obj [("email", .str "a")]) =
      (.error (.capacityExceeded "t"), c3Store) := by decide

/-- C3 (amended): an insert that passes the capacity check, or an update
whose sequence-field lookup succeeds, whose candidate projection over some
uniqueness group structurally equals the projection of an existing (for
update: other) document, fails with `DuplicateUniqueFields` and leaves the
prior collection state unchanged. -/
theorem c3_amended_duplicate_rejected :
    (∀ (s : JsonStore) (tname : String) (v : JsonValue) (info : Info) (tree : Tree)
        (gname : String) (fields : List String) (k : Nat) (row : JsonValue),
      lookupKey tname s.infos = some info →
      lookupKey tname s.trees = some tree →
      tree.data.length < info.capacity →
      (gname, fields) ∈ info.unique_fields →
      (k, row) ∈ tree.data →
      projList fields v = projList fields row →
      s.insert tname v = (.error (.duplicateUniqueFields tname), s)) ∧
    (∀ (s : JsonStore) (tname : String) (v : JsonValue) (info : Info) (tree : Tree)
        (seq : Nat) (gname : String) (fields : List String) (k : Nat) (row : JsonValue),
      lookupKey tname s.infos = some info →
      lookupKey tname s.trees = some tree →
      (v.index info.sequence_field).asU64 = some seq →
      containsKey seq tree.data = true →
      (gname, fields) ∈ info.unique_fields →
      (k, row) ∈ tree.data → k ≠ seq →
      projList fields v = projList fields row →
      s.update tname v = (.error (.duplicateUniqueFields tname), s)) :=
  ⟨fun s tname v info tree gname fields k row h1 h2 h3 h4 h5 h6 =>
    insert_rejects_proj_collision s tname v info tree gname fields k row
      h1 h2 h3 h4 h5 h6,
   fun s tname v info tree seq gname fields k row h1 h2 h3 h4 h5 h6 h7 h8 =>
    update_rejects_proj_collision s tname v info tree seq gname fields k row
      h1 h2 h3 h4 h5 h6 h7 h8⟩

/-- Like `c3Store` but with room (capacity 2), so the uniqueness scan is
reached. -/
def c3Store2 : JsonStore :=
  ⟨"r", [("t", ⟨"id", [("email", ["email"])], 2⟩)],
   [("t", ⟨1, [(1, .obj [("id", .num 1), ("email", .str "a")])], false⟩)]⟩

/-- C3 witness: the amended theorem applied to a concrete duplicate insert
in a collection with room. -/
theorem c3_witness :
    JsonStore.insert c3Store2 "t" (.obj [("email", .str "a")]) =
      (.error (.duplicateUniqueFields "t"), c3Store2) :=
  c3_amended_duplicate_rejected.1 c3Store2 "t" (.obj [("email", .str "a")])
    ⟨"id", [("email", ["email"])], 2⟩
    ⟨1, [(1, .obj [("id", .num 1), ("email", .str "a")])], false⟩
    "email" ["email"] 1 (.obj [("id", .num 1), ("email", .str "a")])
    (by decide) (by decide) (by decide) (by decide) (by decide) (by decide)

/-- C7: a document lacking a constrained field projects `Value::Null` in
its composite projection (`json_value[field]` returns Null for a missing
key), so a candidate that misses exactly the constrained fields an existing
document also misses and agrees with it on the rest of the group collides
structurally and is rejected with `DuplicateUniqueFields` (insert reaching
the uniqueness scan, i.e. not at capacity). -/
theorem c7_missing_fields_null_collision :
    (∀ (v : JsonValue) (f : String), v.get? f = none → v.index f = .null) ∧
    (∀ (s : JsonStore) (tname : String) (v : JsonValue) (info : Info) (tree : Tree)
        (gname : String) (fields : List String) (k : Nat) (row : JsonValue),
      lookupKey tname s.infos = some info →
      lookupKey tname s.trees = some tree →
      tree.data.length < info.capacity →
      (gname, fields) ∈ info.unique_fields →
      (k, row) ∈ tree.data →
      (∀ f ∈ fields, (v.get? f = none ∧ row.get? f = none) ∨ v.index f = row.index f) →
      s.insert tname v = (.error (.duplicateUniqueFields tname), s)) := by
  have hnull : ∀ (v : JsonValue) (f : String), v.get? f = none → v.index f = .null := by
    intro v f h
    cases v with
    | obj fs =>
      simp only [JsonValue.get?] at h
      simp [JsonValue.index, h]
    | null => rfl
    | bool b => rfl
    | num n => rfl
    | str s => rfl
    | arr xs => rfl
  refine ⟨hnull, ?_⟩
  intro s tname v info tree gname fields k row h1 h2 h3 h4 h5 h6
  have heq : projList fields v = projList fields row := by
    apply projList_congr
    intro f hf
    rcases h6 f hf with ⟨hv, hr⟩ | h
    · rw [hnull v f hv, hnull row f hr]
    · exact h
  exact insert_rejects_proj_collision s tname v info tree gname fields k row
    h1 h2 h3 h4 h5 heq

/-- A collection whose stored document misses the constrained field
`email` (group over [email, name]). -/
def c7Store : JsonStore :=
  ⟨"r", [("t", ⟨"id", [("grp", ["email", "name"])], 2⟩)],
   [("t", ⟨1, [(1, .obj [("id", .num 1), ("name", .str "bob")])], false⟩)]⟩

/-- C7 witness: inserting a document that also misses `email` and matches
on `name` is rejected as a duplicate. -/
theorem c7_witness :
    JsonStore.insert c7Store "t" (.obj [("name", .str "bob")]) =
      (.error (.duplicateUniqueFields "t"), c7Store) :=
  c7_missing_fields_null_collision.2 c7Store "t" (.obj [("name", .str "bob")])
    ⟨"id", [("grp", ["email", "name"])], 2⟩
    ⟨1, [(1, .obj [("id", .num 1), ("name", .str "bob")])], false⟩
    "grp" ["email", "name"] 1 (.obj [("id", .num 1), ("name", .str "bob")])
    (by decide) (by decide) (by decide) (by decide) (by decide) (by decide)

/-- C5: `save_tree` on a clean collection performs no writes and leaves
store and file system untouched; on a dirty collection it writes the
sequence marker, then the data file, then clears the dirty flag; if the
first write fails nothing is written, if the second fails the marker is
already on disk (the out-of-sync window), and in either failure the dirty
flag stays true, so a subsequent `save_tree` re-attempts the full write. -/
theorem c5_save_tree_dirty_gated (s : JsonStore) (fs : FS) (tname : String)
    (tree : Tree) (htree : lookupKey tname s.trees = some tree) :
    (tree.changed = false → ∀ okSeq okData,
      s.save_tree fs tname okSeq okData = (.ok (), s, fs)) ∧
    (tree.changed = true →
      s.save_tree fs tname true true = (.ok (),
        updateTree s tname { tree with changed := false },
        insertKey (pathJoin s.path (tname ++ ".json")) (.dataJson tree.data)
          (insertKey (pathJoin s.path (tname ++ ".seq"))
            (.text (natToString tree.sequence)) fs))) ∧
    (tree.changed = true → ∀ okData,
      s.save_tree fs tname false okData = (.error .io, s, fs)) ∧
    (tree.changed = true →
      s.save_tree fs tname true false = (.error .io, s,
        insertKey (pathJoin s.path (tname ++ ".seq"))
          (.text (natToString tree.sequence)) fs)) ∧
    (tree.changed = true → ∀ okData,
      ((s.save_tree fs tname false okData).2.1).save_tree
          ((s.save_tree fs tname false okData).2.2) tname true true =
        (.ok (), updateTree s tname { tree with changed := false },
         insertKey (pathJoin s.path (tname ++ ".json")) (.dataJson tree.data)
           (insertKey (pathJoin s.path (tname ++ ".seq"))
             (.text (natToString tree.sequence)) fs))) := by
  refine ⟨?_, ?_, ?_, ?_, ?_⟩
  · intro hch okSeq okData
    simp [JsonStore.save_tree, htree, hch]
  · intro hch
    simp [JsonStore.save_tree, htree, hch]
  · intro hch okData
    simp [JsonStore.save_tree, htree, hch]
  · intro hch
    simp [JsonStore.save_tree, htree, hch]
  · intro hch okData
    have hfail : s.save_tree fs tname false okData = (.error .io, s, fs) := by
      simp [JsonStore.save_tree, htree, hch]
    rw [hfail]
    simp [JsonStore.save_tree, htree, hch]

/-- A dirty one-collection store for the save_tree witness. -/
def c5Store : JsonStore :=
  ⟨"r", [("t", ⟨"id", [], 2⟩)], [("t", ⟨1, [(1, .obj [("id", .num 1)])], true⟩)]⟩

/-- C5 witness: a clean collection's save is a no-op; a dirty collection's
save writes both files and clears the flag. -/
theorem c5_witness :
    JsonStore.save_tree sampleStore [] "t" true true =
      (.ok (), sampleStore, ([] : FS)) ∧
    JsonStore.save_tree c5Store [] "t" true true =
      (.ok (), updateTree c5Store "t" ⟨1, [(1, .obj [("id", .num 1)])], false⟩,
       insertKey (pathJoin "r" ("t" ++ ".json"))
         (.dataJson [(1, .obj [("id", .num 1)])])
         (insertKey (pathJoin "r" ("t" ++ ".seq")) (.text (natToString 1)) [])) :=
  ⟨(c5_save_tree_dirty_gated sampleStore [] "t" ⟨0, [], false⟩ (by decide)).1
      rfl true true,
   (c5_save_tree_dirty_gated c5Store [] "t" ⟨1, [(1, .obj [("id", .num 1)])], true⟩
      (by decide)).2.1 rfl⟩

theorem natDigitsAux_zero (fuel : Nat) : natDigitsAux fuel 0 = [] := by
  cases fuel <;> rfl

theorem digitChar_isDigit {d : Nat} (h : d < 10) :
    (Nat.digitChar d).isDigit = true := by
  interval_cases d <;> decide

theorem digitChar_toNat_sub {d : Nat} (h : d < 10) :
    (Nat.digitChar d).toNat - 48 = d := by
  interval_cases d <;> decide

theorem natDigitsAux_spec :
    ∀ (n fuel : Nat), n ≤ fuel →
      (∀ c ∈ natDigitsAux fuel n, c.isDigit = true) ∧
      (∀ acc : Nat,
        (natDigitsAux fuel n).foldl (fun a c => a * 10 + (c.toNat - 48)) acc =
          acc * 10 ^ (natDigitsAux fuel n).length + n) := by
  intro n
  induction n using Nat.strong_induction_on with
  | _ n ih =>
    intro fuel hle
    rcases n with _ | m
    · constructor
      · intro c hc; rw [natDigitsAux_zero] at hc; cases hc
      · intro acc; rw [natDigitsAux_zero]; simp
    · rcases fuel with _ | f
      · exact absurd hle (by omega)
      · have hq : (m + 1) / 10 < m + 1 := Nat.div_lt_self (Nat.succ_pos m) (by omega)
        have hqf : (m + 1) / 10 ≤ f := by omega
        obtain ⟨ih1, ih2⟩ := ih ((m + 1) / 10) hq f hqf
        have hr : (m + 1) % 10 < 10 := Nat.mod_lt _ (by omega)
        constructor
        · intro c hc
          simp only [natDigitsAux] at hc
          rcases List.mem_append.mp hc with h | h
          · exact ih1 c h
          · rw [List.mem_singleton] at h; subst h; exact digitChar_isDigit hr
        · intro acc
          simp only [natDigitsAux, List.foldl_append, List.foldl_cons, List.foldl_nil,
            List.length_append, List.length_cons, List.length_nil]
          rw [ih2 acc, digitChar_toNat_sub hr]
          have hqr : 10 * ((m + 1) / 10) + (m + 1) % 10 = m + 1 :=
            Nat.div_add_mod (m + 1) 10
          have hstep :
              (acc * 10 ^ (natDigitsAux f ((m + 1) / 10)).length + (m + 1) / 10) * 10 +
                  (m + 1) % 10 =
                acc * (10 ^ (natDigitsAux f ((m + 1) / 10)).length * 10) +
                  (10 * ((m + 1) / 10) + (m + 1) % 10) := by ring
          rw [hstep, hqr, pow_succ]

theorem parseU64_natToString (n : Nat) (h : n < 2 ^ 64) :
    parseU64 (natToString n) = some n := by
  by_cases h0 : n = 0
  · subst h0; decide
  · unfold natToString
    rw [if_neg h0]
    obtain ⟨hd, hf⟩ := natDigitsAux_spec n n (Nat.le_refl n)
    cases hLc : natDigitsAux n n with
    | nil =>
      exfalso
      rcases n with _ | m
      · exact h0 rfl
      · simp only [natDigitsAux] at hLc
        exact absurd hLc (by simp)
    | cons c cs =>
      have hc : c.isDigit = true := hd c (hLc ▸ List.mem_cons_self c cs)
      have hcp : ¬ c = '+' := by
        intro hcc; rw [hcc] at hc; exact absurd hc (by decide)
      have hall : (c :: cs).all Char.isDigit = true := by
        rw [List.all_eq_true]
        intro x hx
        exact hd x (hLc ▸ hx)
      have hfold :
          (c :: cs).foldl (fun a ch => a * 10 + (ch.toNat - 48)) 0 = n := by
        have := hf 0
        rw [hLc] at this
        simpa using this
      simp only [parseU64]
      rw [show stripPlus (String.mk (c :: cs)).data = c :: cs from by
        simp [stripPlus, hcp]]
      simp [hall, hfold]
      exact (by norm_num : (2 : Nat) ^ 64 = 18446744073709551616) ▸ h

theorem seq_json_suffix_ne (a b : String) : a ++ ".seq" ≠ b ++ ".json" := by
  intro h
  have h' : a.data ++ ".seq".data = b.data ++ ".json".data := by
    rw [← String.data_append, ← String.data_append, h]
  have h1 : (a.data ++ ".seq".data).getLast? = some 'q' := by
    rw [show ".seq".data = ['.', 's', 'e'] ++ ['q'] from rfl, ← List.append_assoc]
    exact List.getLast?_concat _
  have h2 : (b.data ++ ".json".data).getLast? = some 'n' := by
    rw [show ".json".data = ['.', 'j', 's', 'o'] ++ ['n'] from rfl, ← List.append_assoc]
    exact List.getLast?_concat _
  rw [h'] at h1
  exact absurd (Option.some.inj (h1.symm.trans h2)) (by decide)

theorem append_suffix_inj {a b : String} (suf : String) (h : a ++ suf = b ++ suf) :
    a = b := by
  apply String.ext
  have h' : a.data ++ suf.data = b.data ++ suf.data := by
    rw [← String.data_append, ← String.data_append, h]
  exact List.append_cancel_right h'

theorem pathJoin_inj {root x y : String} (h : pathJoin root x = pathJoin root y) :
    x = y := by
  unfold pathJoin at h
  apply String.ext
  have h' : (root ++ "/").data ++ x.data = (root ++ "/").data ++ y.data := by
    rw [← String.data_append, ← String.data_append]
    exact congrArg String.data h
  exact List.append_cancel_left h'

theorem infos_file_ne_seq (a : String) : INFOS_FILE ≠ a ++ ".seq" := by
  intro h
  have h' : INFOS_FILE.data = a.data ++ ".seq".data := by
    rw [← String.data_append, ← h]
  have h1 : INFOS_FILE.data.getLast? = some 'n' := by decide
  have h2 : (a.data ++ ".seq".data).getLast? = some 'q' := by
    rw [show ".seq".data = ['.', 's', 'e'] ++ ['q'] from rfl, ← List.append_assoc]
    exact List.getLast?_concat _
  rw [h'] at h1
  exact absurd (Option.some.inj (h1.symm.trans h2)) (by decide)

theorem infos_file_eq_json {a : String} (h : INFOS_FILE = a ++ ".json") :
    a = "infos" := by
  have h' : a ++ ".json" = "infos" ++ ".json" := by
    rw [← h]; decide
  exact append_suffix_inj ".json" h'

theorem save_tree_clean (s : JsonStore) (fs : FS) (tname : String) (tree : Tree)
    (ht : lookupKey tname s.trees = some tree) (hch : tree.changed = false) :
    s.save_tree fs tname true true = (.ok (), s, fs) := by
  simp [JsonStore.save_tree, ht, hch]

theorem save_tree_dirty (s : JsonStore) (fs : FS) (tname : String) (tree : Tree)
    (ht : lookupKey tname s.trees = some tree) (hch : tree.changed = true) :
    s.save_tree fs tname true true = (.ok (),
      updateTree s tname { tree with changed := false },
      insertKey (pathJoin s.path (tname ++ ".json")) (.dataJson tree.data)
        (insertKey (pathJoin s.path (tname ++ ".seq"))
          (.text (natToString tree.sequence)) fs)) := by
  simp [JsonStore.save_tree, ht, hch]

theorem path_seq_ne_json (root a b : String) :
    pathJoin root (a ++ ".seq") ≠ pathJoin root (b ++ ".json") :=
  fun h => seq_json_suffix_ne a b (pathJoin_inj h)

theorem path_seq_inj {root a b : String}
    (h : pathJoin root (a ++ ".seq") = pathJoin root (b ++ ".seq")) : a = b :=
  append_suffix_inj ".seq" (pathJoin_inj h)

theorem path_json_inj {root a b : String}
    (h : pathJoin root (a ++ ".json") = pathJoin root (b ++ ".json")) : a = b :=
  append_suffix_inj ".json" (pathJoin_inj h)

theorem path_infos_ne_seq (root a : String) :
    pathJoin root INFOS_FILE ≠ pathJoin root (a ++ ".seq") :=
  fun h => infos_file_ne_seq a (pathJoin_inj h)

theorem path_infos_ne_json (root a : String) (ha : a ≠ "infos") :
    pathJoin root INFOS_FILE ≠ pathJoin root (a ++ ".json") :=
  fun h => ha (infos_file_eq_json (pathJoin_inj h))

/-- Full characterisation of the `save` loop when every write succeeds:
given distinct registered names, a tree per name, and on-disk files already
matching every clean tree (the program's save/load cycle maintains this),
the loop succeeds, cleans every processed tree, leaves other trees and
unrelated files alone, and leaves every processed collection's two files
holding exactly its sequence and data. -/
theorem saveLoop_spec :
    ∀ (l : List (String × Info)) (s : JsonStore) (fs : FS),
      (l.map Prod.fst).Nodup →
      (∀ p ∈ l, ∃ tree, lookupKey p.1 s.trees = some tree ∧
        (tree.changed = false →
          lookupKey (pathJoin s.path (p.1 ++ ".seq")) fs =
            some (.text (natToString tree.sequence)) ∧
          lookupKey (pathJoin s.path (p.1 ++ ".json")) fs =
            some (.dataJson tree.data))) →
      ∃ s' fs', saveLoop s fs l = (.ok (), s', fs') ∧
        s'.path = s.path ∧ s'.infos = s.infos ∧
        (∀ name, name ∉ l.map Prod.fst →
          lookupKey name s'.trees = lookupKey name s.trees) ∧
        (∀ p ∈ l, ∀ tree, lookupKey p.1 s.trees = some tree →
          lookupKey p.1 s'.trees = some ⟨tree.sequence, tree.data, false⟩) ∧
        (∀ f, (∀ p ∈ l, f ≠ pathJoin s.path (p.1 ++ ".seq") ∧
            f ≠ pathJoin s.path (p.1 ++ ".json")) →
          lookupKey f fs' = lookupKey f fs) ∧
        (∀ p ∈ l, ∀ tree, lookupKey p.1 s.trees = some tree →
          lookupKey (pathJoin s.path (p.1 ++ ".seq")) fs' =
            some (.text (natToString tree.sequence)) ∧
          lookupKey (pathJoin s.path (p.1 ++ ".json")) fs' =
            some (.dataJson tree.data)) := by
  intro l
  induction l with
  | nil =>
    intro s fs _ _
    exact ⟨s, fs, rfl, rfl, rfl, fun name _ => rfl,
      fun p hp => absurd hp (List.not_mem_nil p),
      fun f _ => rfl, fun p hp => absurd hp (List.not_mem_nil p)⟩
  | cons p rest ih =>
    intro s fs hnodup hhyp
    obtain ⟨name, info⟩ := p
    obtain ⟨tree, htree, hcleanfiles⟩ := hhyp (name, info) (List.mem_cons_self _ _)
    obtain ⟨sq, dt, ch⟩ := tree
    have hnodup' : (rest.map Prod.fst).Nodup := by
      rw [List.map_cons, List.nodup_cons] at hnodup
      exact hnodup.2
    have hname : name ∉ rest.map Prod.fst := by
      rw [List.map_cons, List.nodup_cons] at hnodup
      exact hnodup.1
    have hne_of_mem : ∀ q ∈ rest, (q : String × Info).1 ≠ name := by
      intro q hq hqe
      exact hname (hqe ▸ List.mem_map_of_mem Prod.fst hq)
    cases ch with
    | false =>
      have hsv : s.save_tree fs name true true = (.ok (), s, fs) :=
        save_tree_clean s fs name ⟨sq, dt, false⟩ htree rfl
      obtain ⟨hf1, hf2⟩ := hcleanfiles rfl
      obtain ⟨s', fs', hloop, hpath, hinfos, hpres, htprop, hfpres, hfprop⟩ :=
        ih s fs hnodup' (fun q hq => hhyp q (List.mem_cons_of_mem _ hq))
      refine ⟨s', fs', ?_, hpath, hinfos, ?_, ?_, ?_, ?_⟩
      · simp only [saveLoop, hsv]; exact hloop
      · intro nm hnm
        refine hpres nm ?_
        intro hmem
        exact hnm (by rw [List.map_cons]; exact List.mem_cons_of_mem _ hmem)
      · intro q hq tree0 ht0
        rcases List.mem_cons.mp hq with rfl | hq'
        · rw [htree] at ht0
          cases Option.some.inj ht0
          rw [hpres name hname, htree]
        · exact htprop q hq' tree0 ht0
      · intro f hf
        refine hfpres f ?_
        intro q hq
        exact hf q (List.mem_cons_of_mem _ hq)
      · intro q hq tree0 ht0
        rcases List.mem_cons.mp hq with rfl | hq'
        · rw [htree] at ht0
          cases Option.some.inj ht0
          constructor
          · rw [hfpres (pathJoin s.path (name ++ ".seq")) ?_, hf1]
            intro q' hq'
            exact ⟨fun hh => hne_of_mem q' hq' (path_seq_inj hh).symm,
              path_seq_ne_json s.path name q'.1⟩
          · rw [hfpres (pathJoin s.path (name ++ ".json")) ?_, hf2]
            intro q' hq'
            exact ⟨fun hh => path_seq_ne_json s.path q'.1 name hh.symm,
              fun hh => hne_of_mem q' hq' (path_json_inj hh).symm⟩
        · exact hfprop q hq' tree0 ht0
    | true =>
      have hsv : s.save_tree fs name true true = (.ok (),
          updateTree s name ⟨sq, dt, false⟩,
          insertKey (pathJoin s.path (name ++ ".json")) (.dataJson dt)
            (insertKey (pathJoin s.path (name ++ ".seq"))
              (.text (natToString sq)) fs)) :=
        save_tree_dirty s fs name ⟨sq, dt, true⟩ htree rfl
      set s1 := updateTree s name (⟨sq, dt, false⟩ : Tree) with hs1
      set fs1 := insertKey (pathJoin s.path (name ++ ".json"))
          (FileContent.dataJson dt)
          (insertKey (pathJoin s.path (name ++ ".seq"))
            (.text (natToString sq)) fs) with hfs1
      have hs1path : s1.path = s.path := rfl
      have hs1infos : s1.infos = s.infos := rfl
      have hs1lookup_ne : ∀ nm, nm ≠ name →
          lookupKey nm s1.trees = lookupKey nm s.trees := by
        intro nm hnm
        simp only [hs1, updateTree]
        exact lookupKey_insertKey_ne _ _ hnm
      have hs1lookup_self : lookupKey name s1.trees = some ⟨sq, dt, false⟩ := by
        simp only [hs1, updateTree]
        exact lookupKey_insertKey_self _ _ _
      have hfs1_other : ∀ f, f ≠ pathJoin s.path (name ++ ".seq") →
          f ≠ pathJoin s.path (name ++ ".json") →
          lookupKey f fs1 = lookupKey f fs := by
        intro f h1 h2
        simp only [hfs1]
        rw [lookupKey_insertKey_ne _ _ h2, lookupKey_insertKey_ne _ _ h1]
      have hfs1_seq : lookupKey (pathJoin s.path (name ++ ".seq")) fs1 =
          some (.text (natToString sq)) := by
        simp only [hfs1]
        rw [lookupKey_insertKey_ne _ _ (path_seq_ne_json s.path name name)]
        exact lookupKey_insertKey_self _ _ _
      have hfs1_json : lookupKey (pathJoin s.path (name ++ ".json")) fs1 =
          some (.dataJson dt) := by
        simp only [hfs1]
        exact lookupKey_insertKey_self _ _ _
      have hyp1 : ∀ q ∈ rest, ∃ tq, lookupKey (q : String × Info).1 s1.trees = some tq ∧
          (tq.changed = false →
            lookupKey (pathJoin s1.path (q.1 ++ ".seq")) fs1 =
              some (.text (natToString tq.sequence)) ∧
            lookupKey (pathJoin s1.path (q.1 ++ ".json")) fs1 =
              some (.dataJson tq.data)) := by
        intro q hq
        obtain ⟨tq, htq, hcf⟩ := hhyp q (List.mem_cons_of_mem _ hq)
        refine ⟨tq, ?_, ?_⟩
        · rw [hs1lookup_ne q.1 (hne_of_mem q hq), htq]
        · intro hcq
          obtain ⟨hc1, hc2⟩ := hcf hcq
          rw [hs1path]
          constructor
          · rw [hfs1_other _ (fun hh => hne_of_mem q hq (path_seq_inj hh))
              (path_seq_ne_json s.path q.1 name), hc1]
          · rw [hfs1_other _ (fun hh => path_seq_ne_json s.path name q.1 hh.symm)
              (fun hh => hne_of_mem q hq (path_json_inj hh)), hc2]
      obtain ⟨s', fs', hloop, hpath, hinfos, hpres, htprop, hfpres, hfprop⟩ :=
        ih s1 fs1 hnodup' hyp1
      refine ⟨s', fs', ?_, hpath.trans hs1path, hinfos.trans hs1infos, ?_, ?_, ?_, ?_⟩
      · simp only [saveLoop, hsv]; exact hloop
      · intro nm hnm
        have hnm1 : nm ≠ name := by
          intro hh
          exact hnm (by rw [List.map_cons, hh]; exact List.mem_cons_self _ _)
        have hnm2 : nm ∉ rest.map Prod.fst := by
          intro hmem
          exact hnm (by rw [List.map_cons]; exact List.mem_cons_of_mem _ hmem)
        rw [hpres nm hnm2, hs1lookup_ne nm hnm1]
      · intro q hq tree0 ht0
        rcases List.mem_cons.mp hq with rfl | hq'
        · rw [htree] at ht0
          cases Option.some.inj ht0
          rw [hpres name hname, hs1lookup_self]
        · rw [← hs1lookup_ne q.1 (hne_of_mem q hq')] at ht0
          exact htprop q hq' tree0 ht0
      · intro f hf
        obtain ⟨hfa, hfb⟩ := hf (name, info) (List.mem_cons_self _ _)
        have hrest : ∀ q ∈ rest, f ≠ pathJoin s1.path (q.1 ++ ".seq") ∧
            f ≠ pathJoin s1.path (q.1 ++ ".json") := by
          intro q hq
          rw [hs1path]
          exact hf q (List.mem_cons_of_mem _ hq)
        rw [hfpres f hrest, hfs1_other f hfa hfb]
      · intro q hq tree0 ht0
        rcases List.mem_cons.mp hq with rfl | hq'
        · rw [htree] at ht0
          cases Option.some.inj ht0
          have hrest1 : ∀ q' ∈ rest,
              pathJoin s.path (name ++ ".seq") ≠ pathJoin s1.path (q'.1 ++ ".seq") ∧
              pathJoin s.path (name ++ ".seq") ≠ pathJoin s1.path (q'.1 ++ ".json") := by
            intro q' hq'
            rw [hs1path]
            exact ⟨fun hh => hne_of_mem q' hq' (path_seq_inj hh).symm,
              path_seq_ne_json s.path name q'.1⟩
          have hrest2 : ∀ q' ∈ rest,
              pathJoin s.path (name ++ ".json") ≠ pathJoin s1.path (q'.1 ++ ".seq") ∧
              pathJoin s.path (name ++ ".json") ≠ pathJoin s1.path (q'.1 ++ ".json") := by
            intro q' hq'
            rw [hs1path]
            exact ⟨fun hh => path_seq_ne_json s.path q'.1 name hh.symm,
              fun hh => hne_of_mem q' hq' (path_json_inj hh).symm⟩
          exact ⟨(hfpres _ hrest1).trans hfs1_seq, (hfpres _ hrest2).trans hfs1_json⟩
        · have ht1 : lookupKey q.1 s1.trees = some tree0 := by
            rw [hs1lookup_ne q.1 (hne_of_mem q hq'), ht0]
          have := hfprop q hq' tree0 ht1
          rw [hs1path] at this
          exact this

/-- `loadTrees` succeeds when every registered name's two files are
readable, and yields for each name the tree built from its files with a
clear dirty flag. -/
theorem loadTrees_spec :
    ∀ (l : List (String × Info)) (fs : FS) (path : String),
      (l.map Prod.fst).Nodup →
      (∀ p ∈ l, ∃ sq dt,
        get_sequence fs (pathJoin path (p.1 ++ ".seq")) = .ok sq ∧
        get_json_data fs (pathJoin path (p.1 ++ ".json")) = .ok (some dt)) →
      ∃ trees, loadTrees fs path l = .ok trees ∧
        ∀ p ∈ l, ∀ sq dt,
          get_sequence fs (pathJoin path (p.1 ++ ".seq")) = .ok sq →
          get_json_data fs (pathJoin path (p.1 ++ ".json")) = .ok (some dt) →
          lookupKey p.1 trees = some ⟨sq, dt, false⟩ := by
  intro l
  induction l with
  | nil =>
    intro fs path _ _
    exact ⟨[], rfl, fun p hp => absurd hp (List.not_mem_nil p)⟩
  | cons p rest ih =>
    intro fs path hnodup hhyp
    obtain ⟨name, info⟩ := p
    obtain ⟨sq, dt, hs, hd⟩ := hhyp (name, info) (List.mem_cons_self _ _)
    have hnodup' : (rest.map Prod.fst).Nodup := by
      rw [List.map_cons, List.nodup_cons] at hnodup
      exact hnodup.2
    have hname : name ∉ rest.map Prod.fst := by
      rw [List.map_cons, List.nodup_cons] at hnodup
      exact hnodup.1
    obtain ⟨trees', hload', hprop'⟩ :=
      ih fs path hnodup' (fun q hq => hhyp q (List.mem_cons_of_mem _ hq))
    refine ⟨(name, ⟨sq, dt, false⟩) :: trees', ?_, ?_⟩
    · simp only [loadTrees, hs, hd, hload', bind, Except.bind, Option.getD]
    · intro q hq sq' dt' hs' hd'
      rcases List.mem_cons.mp hq with rfl | hq'
      · cases Except.ok.inj (hs.symm.trans hs')
        cases Option.some.inj (Except.ok.inj (hd.symm.trans hd'))
        simp [lookupKey]
      · have hqname : q.1 ≠ name := by
          intro hh
          exact hname (hh ▸ List.mem_map_of_mem Prod.fst hq')
        simp only [lookupKey, if_neg hqname]
        exact hprop' q hq' sq' dt' hs' hd'

/-- A store whose only collection is named `infos`: its data file path
`<root>/infos.json` coincides with the registry file path. -/
def c6Store : JsonStore :=
  ⟨"r", [("infos", ⟨"id", [], 1⟩)], [("infos", ⟨1, [(1, .obj [("id", .num 1)])], true⟩)]⟩

/-- The on-disk state matching `c6Store`'s registry. -/
def c6FS : FS := [(pathJoin "r" INFOS_FILE, .infosJson [("infos", ⟨"id", [], 1⟩)])]

/-- C6, counterexample: for the store whose collection is named `infos`,
`save()` succeeds but overwrites the registry file `r/infos.json` with the
collection's data file (same path), so the subsequent `load` of the same
root fails to deserialise the registry instead of reproducing an
equivalent store. -/
theorem c6_counterexample :
    (JsonStore.save c6Store c6FS).1 = .ok () ∧
    JsonStore.load (JsonStore.save c6Store c6FS).2.2 "r" =
      .error .deserializeFromStr := by decide

/-- C6 (amended): for every store whose registry file on disk matches its
in-memory registry, whose registered names are distinct and none of them is
`infos`, and whose clean collections' on-disk files already match their
in-memory state (all of which hold for stores obtained from `load` and
maintained by the API), a successful `save()` followed by `load` of the
same root produces a store with the same collection set, the same `Info`
per collection, and per collection the same sequence high-water mark and
document mapping as the saved store, with every loaded dirty flag false. -/
theorem c6_amended_save_load_roundtrip (s : JsonStore) (fs : FS)
    (hreg : lookupKey (pathJoin s.path INFOS_FILE) fs = some (.infosJson s.infos))
    (hnodup : (s.infos.map Prod.fst).Nodup)
    (hnoinfos : ∀ p ∈ s.infos, (p : String × Info).1 ≠ "infos")
    (htrees : ∀ p ∈ s.infos, ∃ tree,
      lookupKey (p : String × Info).1 s.trees = some tree ∧
      tree.sequence < 2 ^ 64 ∧
      (tree.changed = false →
        lookupKey (pathJoin s.path (p.1 ++ ".seq")) fs =
          some (.text (natToString tree.sequence)) ∧
        lookupKey (pathJoin s.path (p.1 ++ ".json")) fs =
          some (.dataJson tree.data))) :
    ∃ s' fs', s.save fs = (.ok (), s', fs') ∧
      s'.path = s.path ∧ s'.infos = s.infos ∧
      ∃ s'', JsonStore.load fs' s.path = .ok s'' ∧
        s''.path = s.path ∧ s''.infos = s.infos ∧
        ∀ p ∈ s.infos, ∀ tree,
          lookupKey (p : String × Info).1 s.trees = some tree →
          lookupKey p.1 s'.trees = some ⟨tree.sequence, tree.data, false⟩ ∧
          lookupKey p.1 s''.trees = some ⟨tree.sequence, tree.data, false⟩ := by
  obtain ⟨s', fs', hloop, hpath, hinfos, hpres, htprop, hfpres, hfprop⟩ :=
    saveLoop_spec s.infos s fs hnodup
      (fun p hp => by
        obtain ⟨tree, ht, _, hcf⟩ := htrees p hp
        exact ⟨tree, ht, hcf⟩)
  have hregfs' : lookupKey (pathJoin s.path INFOS_FILE) fs' =
      some (.infosJson s.infos) := by
    rw [hfpres _ (fun p hp =>
      ⟨path_infos_ne_seq s.path p.1, path_infos_ne_json s.path p.1 (hnoinfos p hp)⟩)]
    exact hreg
  have hloadhyp : ∀ p ∈ s.infos, ∃ sq dt,
      get_sequence fs' (pathJoin s.path (p.1 ++ ".seq")) = .ok sq ∧
      get_json_data fs' (pathJoin s.path (p.1 ++ ".json")) = .ok (some dt) := by
    intro p hp
    obtain ⟨tree, ht, hbound, _⟩ := htrees p hp
    obtain ⟨hfseq, hfjson⟩ := hfprop p hp tree ht
    refine ⟨tree.sequence, tree.data, ?_, ?_⟩
    · simp [get_sequence, hfseq, parseU64_natToString tree.sequence hbound]
    · simp [get_json_data, hfjson]
  obtain ⟨trees'', hload'', hprop''⟩ := loadTrees_spec s.infos fs' s.path hnodup hloadhyp
  have hgi : get_json_infos fs' (pathJoin s.path INFOS_FILE) = .ok (some s.infos) := by
    simp [get_json_infos, hregfs']
  refine ⟨s', fs', ?_, hpath, hinfos, ⟨s.path, s.infos, trees''⟩, ?_, rfl, rfl, ?_⟩
  · show saveLoop s fs s.infos = (.ok (), s', fs')
    exact hloop
  · simp [JsonStore.load, hgi, hload'', bind, Except.bind]
  · intro p hp tree ht
    obtain ⟨tree0, ht0, hbound, _⟩ := htrees p hp
    rw [ht] at ht0
    cases Option.some.inj ht0
    obtain ⟨hfseq, hfjson⟩ := hfprop p hp tree ht
    refine ⟨htprop p hp tree ht, ?_⟩
    refine hprop'' p hp tree.sequence tree.data ?_ ?_
    · simp [get_sequence, hfseq, parseU64_natToString tree.sequence hbound]
    · simp [get_json_data, hfjson]

/-- The on-disk registry matching `c5Store` (one dirty collection `t`). -/
def c6wFS : FS := [(pathJoin "r" INFOS_FILE, .infosJson [("t", ⟨"id", [], 2⟩)])]

/-- C6 witness: the amended round-trip applied to the concrete dirty store
`c5Store` with its matching on-disk registry. -/
theorem c6_witness :
    ∃ s' fs', JsonStore.save c5Store c6wFS = (.ok (), s', fs') ∧
      s'.path = c5Store.path ∧ s'.infos = c5Store.infos ∧
      ∃ s'', JsonStore.load fs' c5Store.path = .ok s'' ∧
        s''.path = c5Store.path ∧ s''.infos = c5Store.infos ∧
        ∀ p ∈ c5Store.infos, ∀ tree,
          lookupKey (p : String × Info).1 c5Store.trees = some tree →
          lookupKey p.1 s'.trees = some ⟨tree.sequence, tree.data, false⟩ ∧
          lookupKey p.1 s''.trees = some ⟨tree.sequence, tree.data, false⟩ :=
  c6_amended_save_load_roundtrip c5Store c6wFS (by decide) (by decide)
    (by decide)
    (by
      intro p hp
      have hp' : p = ("t", ⟨"id", [], 2⟩) := by simpa [c5Store] using hp
      subst hp'
      exact ⟨⟨1, [(1, .obj [("id", .num 1)])], true⟩, by decide, by decide,
        fun h => absurd h (by decide)⟩)

end RsJsonStore
